import Mathlib

set_option maxRecDepth 40000

/-! Shallow embedding of build_tools/http_cache.py: an on-disk, size-bounded
cache for downloaded artifacts (`Cache`) together with a validated,
retrying downloader (`download`).  Files are modelled as named byte lists
with an integer modification time; the enumeration order of `glob` (which
Python leaves unspecified) is modelled by the order of the file list, and
the wall clock by a monotone counter threaded through the state. -/

/-- URL components as produced by urllib.parse.urlparse. -/
structure URL where
  scheme : String
  host : String
  path : String
  query : String
  fragment : String
deriving Repr, DecidableEq

/-- Python str.replace with the single-character pattern "/" and
replacement "-" acts as a per-character map. -/
def replaceSlash (s : String) : String :=
  String.mk (s.data.map (fun c => if c = '/' then '-' else c))

/-- mangle from http_cache.py: the cache key is the fixed tag "defold"
followed by the URL path with every slash replaced by a dash. -/
def mangle (u : URL) : String :=
  "defold" ++ replaceSlash u.path

/-- one lowercase hex digit; arguments are always below 16 where this is
used (they arise as b / 16 and b % 16 for a byte b). -/
def hexDigit : Nat → Char
  | 0 => '0' | 1 => '1' | 2 => '2' | 3 => '3' | 4 => '4'
  | 5 => '5' | 6 => '6' | 7 => '7' | 8 => '8' | 9 => '9'
  | 10 => 'a' | 11 => 'b' | 12 => 'c' | 13 => 'd' | 14 => 'e' | 15 => 'f'
  | _ + 16 => '0'

def hexChars : List Nat → List Char
  | [] => []
  | b :: bs => hexDigit (b / 16) :: hexDigit (b % 16) :: hexChars bs

/-- codecs.encode(bytes, "hex"): lowercase hex rendering of a byte list. -/
def hexEncode (bs : List Nat) : String := String.mk (hexChars bs)

def hexDigitVal (c : Char) : Option Nat :=
  if '0' ≤ c ∧ c ≤ '9' then some (c.toNat - 48)
  else if 'a' ≤ c ∧ c ≤ 'f' then some (c.toNat - 87)
  else if 'A' ≤ c ∧ c ≤ 'F' then some (c.toNat - 55)
  else none

def hexDecodeChars : List Char → Option (List Nat)
  | [] => some []
  | [_] => none
  | c1 :: c2 :: rest =>
    match hexDigitVal c1, hexDigitVal c2, hexDecodeChars rest with
    | some h, some l, some bs => some ((h * 16 + l) :: bs)
    | _, _, _ => none

/-- codecs.decode(s, "hex"): bytes of an even-length hex string; it fails
on odd length or non-hex characters. -/
def hexDecode (s : String) : Option (List Nat) := hexDecodeChars s.data

/-- Boolean list prefix test. -/
def prefB : List Char → List Char → Bool
  | [], _ => true
  | _ :: _, [] => false
  | a :: as, b :: bs => a == b && prefB as bs

/-- str.startswith. -/
def strStarts (s pre : String) : Bool := prefB pre.data s.data

/-- str.endswith. -/
def strEnds (s suf : String) : Bool := prefB suf.data.reverse s.data.reverse

/-- rsplit("-", 1)[1]: the text after the last dash (cache entry names
always contain a dash, so the missing-dash case is unreachable). -/
def afterLastDash (s : String) : String :=
  String.mk ((s.data.reverse.takeWhile (fun c => c != '-')).reverse)

/-- str.encode(): UTF-8 bytes; on the ASCII validators this development
reasons about, UTF-8 coincides with the character code point list. -/
def strBytes (s : String) : List Nat := s.data.map Char.toNat

/-- a cached file: name, byte content (its on-disk size is the length) and
modification time. -/
structure FileEnt where
  name : String
  content : List Nat
  mtime : Nat
deriving Repr, DecidableEq

/-- cache directory state: files plus a monotone clock supplying
modification times. -/
structure FS where
  files : List FileEnt
  clock : Nat
deriving Repr, DecidableEq

/-- os.utime(path, None): refresh the file's modification time. -/
def touch (name : String) (fs : FS) : FS :=
  { files := fs.files.map (fun e => if e.name = name then { e with mtime := fs.clock } else e)
    clock := fs.clock + 1 }

/-- os.remove. -/
def removeFile (name : String) (fs : FS) : FS :=
  { fs with files := fs.files.filter (fun e => e.name != name) }

/-- create or overwrite a file with the given content. -/
def writeFile (name : String) (content : List Nat) (fs : FS) : FS :=
  { files := (fs.files.filter (fun e => e.name != name)) ++ [⟨name, content, fs.clock⟩]
    clock := fs.clock + 1 }

/-- os.replace(src, dst): atomically rename src onto dst. -/
def renameFile (src dst : String) (fs : FS) : FS :=
  let files1 := (fs.files.filter (fun e => e.name != dst)).map
    (fun e => if e.name = src then { e with name := dst } else e)
  { fs with files := files1 }

def fileContent (fs : FS) (name : String) : Option (List Nat) :=
  (fs.files.find? (fun e => e.name == name)).map (·.content)

def hasFile (fs : FS) (name : String) : Bool :=
  fs.files.any (fun e => e.name == name)

/-- glob pattern `base-*`: the file name starts with `base ++ "-"`. -/
def matchesKey (base : String) (e : FileEnt) : Bool := strStarts e.name (base ++ "-")

/-- Cache.get: first glob match for `key-*`; a stale `_tmp` match is
deleted and reported as a miss; otherwise the entry is touched and the hex
suffix after the last dash is decoded (malformed hex degrades to empty
bytes, not to a miss). -/
def cacheGet (url : URL) (fs : FS) : Option (String × List Nat) × FS :=
  let base := mangle url
  match fs.files.find? (matchesKey base) with
  | none => (none, fs)
  | some e =>
    if strEnds e.name "_tmp" then (none, removeFile e.name fs)
    else
      let keyHex := afterLastDash e.name
      let fs1 := touch e.name fs
      match hexDecode keyHex with
      | some bs => (some (e.name, bs), fs1)
      | none => (some (e.name, []), fs1)

def insertDesc (e : FileEnt) : List FileEnt → List FileEnt
  | [] => [e]
  | x :: xs => if x.mtime ≤ e.mtime then e :: x :: xs else x :: insertDesc e xs

/-- list.sort(key=os.path.getmtime, reverse=True): stable sort, most
recently used first. -/
def sortByMtimeDesc (l : List FileEnt) : List FileEnt := l.foldr insertDesc []

/-- the scan of Cache._accomodate over the files in MRU order: the running
total accumulates every file it sees, and a file is deleted (dropped from
the result) exactly when the running total including it, plus the incoming
size, exceeds max_size. -/
def keepScan (maxSize size : Nat) : Nat → List FileEnt → List FileEnt
  | _, [] => []
  | total, e :: rest =>
    let total1 := total + e.content.length
    if maxSize < total1 + size then keepScan maxSize size total1 rest
    else e :: keepScan maxSize size total1 rest

/-- Cache._accomodate(size). -/
def accomodate (maxSize size : Nat) (fs : FS) : FS :=
  { fs with files := keepScan maxSize size 0 (sortByMtimeDesc fs.files) }

/-- the path Cache.put returns for a url and validator key: the mangled
key, a dash, and the hex-encoded validator (or the placeholder "00" when
the validator is empty). -/
def finalPath (url : URL) (key : String) : String :=
  let keyEnc := hexEncode (strBytes key)
  mangle url ++ "-" ++ (if keyEnc = "" then "00" else keyEnc)

/-- Cache.put: drop every entry for the url's key, run the eviction pass
for the incoming size, and return the path the new entry should be written
to (the file itself is created later by the downloader). -/
def cachePut (maxSize : Nat) (url : URL) (key : String) (size : Nat) (fs : FS) :
    String × FS :=
  let base := mangle url
  let fs1 := { fs with files := fs.files.filter (fun e => !(matchesKey base e)) }
  (finalPath url key, accomodate maxSize size fs1)

def sumSizes (l : List FileEnt) : Nat := l.foldr (fun e a => e.content.length + a) 0

/-- the value of one standard base64 alphabet character. -/
def b64Val (c : Char) : Option Nat :=
  if 'A' ≤ c ∧ c ≤ 'Z' then some (c.toNat - 65)
  else if 'a' ≤ c ∧ c ≤ 'z' then some (c.toNat - 71)
  else if '0' ≤ c ∧ c ≤ '9' then some (c.toNat + 4)
  else if c = '+' then some 62
  else if c = '/' then some 63
  else none

def b64Groups : List Char → Option (List Nat)
  | [] => some []
  | [c1, c2, '=', '='] =>
    match b64Val c1, b64Val c2 with
    | some v1, some v2 => some [v1 * 4 + v2 / 16]
    | _, _ => none
  | [c1, c2, c3, '='] =>
    match b64Val c1, b64Val c2, b64Val c3 with
    | some v1, some v2, some v3 => some [v1 * 4 + v2 / 16, v2 % 16 * 16 + v3 / 4]
    | _, _, _ => none
  | c1 :: c2 :: c3 :: c4 :: rest =>
    match b64Val c1, b64Val c2, b64Val c3, b64Val c4, b64Groups rest with
    | some v1, some v2, some v3, some v4, some bs =>
      some ([v1 * 4 + v2 / 16, v2 % 16 * 16 + v3 / 4, v3 % 4 * 64 + v4] ++ bs)
    | _, _, _, _, _ => none
  | _ => none

/-- base64.b64decode: characters outside the alphabet are discarded first
(the default non-validating mode); the rest must form full groups of four
with regular trailing padding, otherwise decoding fails. -/
def b64decode (s : String) : Option (List Nat) :=
  b64Groups (s.data.filter (fun c => (b64Val c).isSome || c == '='))

def isSpaceCh (c : Char) : Bool :=
  c == ' ' || c == '\t' || c == '\n' || c == '\r' || c == '\x0b' || c == '\x0c'

/-- str.strip(): drop leading and trailing whitespace. -/
def pyStrip (s : String) : String :=
  String.mk (((s.data.dropWhile isSpaceCh).reverse.dropWhile isSpaceCh).reverse)

/-- str.strip(c): drop every leading and trailing occurrence of c. -/
def stripCharBoth (c : Char) (s : String) : String :=
  String.mk (((s.data.dropWhile (· == c)).reverse.dropWhile (· == c)).reverse)

/-- str.removeprefix. -/
def removePrefixStr (pre s : String) : String :=
  if strStarts s pre then String.mk (s.data.drop pre.data.length) else s

def isHexCh (c : Char) : Bool :=
  ('0' ≤ c ∧ c ≤ '9') || ('a' ≤ c ∧ c ≤ 'f') || ('A' ≤ c ∧ c ≤ 'F')

/-- ASCII lowercasing, as applied to checksum hex strings. -/
def lowerCh (c : Char) : Char :=
  if 'A' ≤ c ∧ c ≤ 'Z' then Char.ofNat (c.toNat + 32) else c

def pyLower (s : String) : String := String.mk (s.data.map lowerCh)

/-- the ETag fallback of _extract_md5_from_headers: strip whitespace, outer
quotes and a weak-validator prefix; trust the result as an MD5 hint only if
it is exactly 32 hex characters. -/
def etagHint (etag : String) : Option String :=
  let e1 := stripCharBoth '"' (pyStrip etag)
  let e2 := stripCharBoth '"' (removePrefixStr "W/" e1)
  if e2.data.all isHexCh ∧ e2.length = 32 then some e2 else none

/-- _extract_md5_from_headers: prefer a base64 Content-MD5 header converted
to hex; when absent, undecodable or empty, fall back to a hex-shaped ETag. -/
def extractMD5 (contentMD5 : Option String) (etag : Option String) : Option String :=
  let fromC : Option String :=
    match contentMD5 with
    | some s => if s = "" then none else (b64decode s).map hexEncode
    | none => none
  match fromC with
  | some h => if h = "" then etagHint (etag.getD "") else some h
  | none => etagHint (etag.getD "")

/-- an HTTP response inside the 200/304 handler: status code, the parsed
Content-Length header, the raw Content-MD5 and ETag headers, and the body
as the chunk sequence successive read() calls return. -/
structure Response where
  code : Nat
  contentLength : Option Nat
  contentMD5 : Option String
  etag : Option String
  body : List (List Nat)
deriving Repr, DecidableEq

/-- what one urlopen call does, as chosen by the network environment.
Stock urllib raises HTTPError for every non-2xx status (there is no
http_error_304 handler), so against a real network `ok` carries only 2xx
responses; the type is wider, and theorems about reachable behaviour
hypothesise that an `ok` response never has code 304. -/
inductive NetResult where
  | ok (r : Response)
  | httpError (code : Nat)
  | netError
deriving Repr, DecidableEq

/-- the error value recorded by one failed attempt. -/
inductive AErr where
  | cacheCorruption
  | http304Corrupt
  | unexpectedStatus (code : Nat)
  | incomplete (got expected : Nat)
  | checksum
  | callbackRaised
  | httpError (code : Nat)
  | netError
deriving Repr, DecidableEq

/-- an error download could conceivably raise: either a raw per-attempt
error escaping directly, or the terminal RuntimeError naming the url, the
attempt budget and the last underlying error. -/
inductive Err where
  | raw (e : AErr)
  | exhausted (url : URL) (retries : Nat) (last : Option AErr)
deriving Repr, DecidableEq

/-- Python truthiness of the optional expected size: None and 0 both select
the unknown-length branch of the progress logic. -/
def esTruthy : Option Nat → Option Nat
  | some 0 => none
  | x => x

def mB : Nat := 1024 * 1024

/-- the progress decision for one chunk: when the total size is known the
callback fires when the integer progress step int(n / size * cb_count)
exceeds the last fired step (which then becomes the new step); when the
size is unknown it fires on each crossed megabyte boundary.  Python's
float arithmetic is modelled by exact integer arithmetic. -/
def callDecision (cbCount : Nat) (esT : Option Nat) (nOld nNew : Nat) (cbI : Int) :
    Option ((Nat × Option Nat) × Int) :=
  match esT with
  | some es =>
    let step : Int := (nNew * cbCount / es : Nat)
    if cbI < step then some ((nNew, some es), step) else none
  | none =>
    if nNew / mB ≠ nOld / mB then some ((nNew, none), cbI) else none

/-- the result of streaming a body to the temp file: the bytes written, the
progress callback invocations made, and whether the callback raised. -/
structure StreamOut where
  content : List Nat
  calls : List (Nat × Option Nat)
  raised : Bool
deriving Repr, DecidableEq

/-- the download streaming loop: write each chunk, then run the progress
logic; reading stops at the first empty chunk.  The callback is modelled as
a function returning whether the invocation raises. -/
def streamChunks (cb : Option (Nat → Option Nat → Bool)) (cbCount : Nat)
    (expectedSize : Option Nat) : List (List Nat) → Nat → Int → StreamOut
  | [], _, _ => ⟨[], [], false⟩
  | buf :: rest, n, cbI =>
    if buf.isEmpty then ⟨[], [], false⟩
    else
      let n1 := n + buf.length
      match cb with
      | none =>
        let out := streamChunks none cbCount expectedSize rest n1 cbI
        ⟨buf ++ out.content, out.calls, out.raised⟩
      | some cbf =>
        match callDecision cbCount (esTruthy expectedSize) n n1 cbI with
        | none =>
          let out := streamChunks cb cbCount expectedSize rest n1 cbI
          ⟨buf ++ out.content, out.calls, out.raised⟩
        | some (call, cbI1) =>
          if cbf call.1 call.2 then ⟨buf, [call], true⟩
          else
            let out := streamChunks cb cbCount expectedSize rest n1 cbI1
            ⟨buf ++ out.content, call :: out.calls, out.raised⟩

/-- outcome of one attempt: success returns the cache path; the 304-with-
bad-cache failure is distinguished because the source reaches it with
`continue`, skipping the log-and-backoff block every other failure runs. -/
inductive AttemptRes where
  | success (path : String)
  | fail (e : AErr)
  | failNoBackoff (e : AErr)
deriving Repr, DecidableEq

structure AttemptOut where
  res : AttemptRes
  fs : FS
  calls : List (Nat × Option Nat)
deriving Repr, DecidableEq

/-- the code == 200 body of download: read headers, allocate the cache path
via put, stream to the temp file, validate size then checksum, and only
then atomically rename the temp file onto the final path. -/
def attempt200 (maxSize : Nat) (md5hex : List Nat → String) (url : URL)
    (cb : Option (Nat → Option Nat → Bool)) (cbCount : Nat) (r : Response)
    (fs : FS) : AttemptOut :=
  let expectedSize := r.contentLength
  let etag := r.etag.getD ""
  let pp := cachePut maxSize url etag (expectedSize.getD 0) fs
  let path := pp.1
  let tmp := path ++ "_tmp"
  let fs2 := removeFile tmp pp.2
  let so := streamChunks cb cbCount expectedSize r.body 0 (-1)
  let fs3 := writeFile tmp so.content fs2
  if so.raised then ⟨.fail .callbackRaised, fs3, so.calls⟩
  else
    let n := so.content.length
    let md5hint := extractMD5 r.contentMD5 r.etag
    let publish : AttemptOut :=
      match md5hint with
      | some h =>
        if h = "" then ⟨.success path, renameFile tmp path fs3, so.calls⟩
        else if pyLower (md5hex so.content) ≠ pyLower h then ⟨.fail .checksum, fs3, so.calls⟩
        else ⟨.success path, renameFile tmp path fs3, so.calls⟩
      | none => ⟨.success path, renameFile tmp path fs3, so.calls⟩
    match expectedSize with
    | some es => if n ≠ es then ⟨.fail (.incomplete n es), fs3, so.calls⟩ else publish
    | none => publish

/-- the finally block of the attempt: look the url up again (which deletes
a stale temp entry by itself) and best-effort remove the hit's temp file. -/
def runFinally (url : URL) (fs : FS) : FS :=
  let g := cacheGet url fs
  match g.1 with
  | some pr => removeFile (pr.1 ++ "_tmp") g.2
  | none => g.2

structure AttemptFull where
  res : AttemptRes
  fs : FS
  sent : Option (List Nat)
  calls : List (Nat × Option Nat)
deriving Repr, DecidableEq

/-- one iteration of the download retry loop: cache lookup, conditional
request, response dispatch (304 reuse, non-200 rejection, 200 fetch), and
the temp-cleanup finally block. -/
def attemptOnce (maxSize : Nat) (md5hex : List Nat → String) (url : URL)
    (cb : Option (Nat → Option Nat → Bool)) (cbCount : Nat) (resp : NetResult)
    (fs : FS) : AttemptFull :=
  let g := cacheGet url fs
  let hit := g.1
  let fs0 := g.2
  let sent : Option (List Nat) :=
    match hit with
    | some pr => if pr.2.isEmpty then none else some pr.2
    | none => none
  let core : AttemptRes × FS × List (Nat × Option Nat) :=
    match resp with
    | .netError => (.fail .netError, fs0, [])
    | .httpError code =>
      match hit with
      | some pr =>
        if code = 304 then
          match fileContent fs0 pr.1 with
          | some c =>
            if 0 < c.length then (.success pr.1, fs0, [])
            else (.fail .http304Corrupt, fs0, [])
          | none => (.fail .http304Corrupt, fs0, [])
        else (.fail (.httpError code), fs0, [])
      | none => (.fail (.httpError code), fs0, [])
    | .ok r =>
      match hit with
      | some pr =>
        if r.code = 304 then
          match fileContent fs0 pr.1 with
          | some c =>
            if 0 < c.length then (.success pr.1, fs0, [])
            else (.failNoBackoff .cacheCorruption, fs0, [])
          | none => (.failNoBackoff .cacheCorruption, fs0, [])
        else if r.code ≠ 200 then (.fail (.unexpectedStatus r.code), fs0, [])
        else
          let a := attempt200 maxSize md5hex url cb cbCount r fs0
          (a.res, a.fs, a.calls)
      | none =>
        if r.code ≠ 200 then (.fail (.unexpectedStatus r.code), fs0, [])
        else
          let a := attempt200 maxSize md5hex url cb cbCount r fs0
          (a.res, a.fs, a.calls)
  ⟨core.1, runFinally url core.2.1, sent, core.2.2⟩

/-- observable download state: the cache directory, the last recorded
error, the (attempt, delay) log-and-sleep backoff events, the conditional
validator sent with each request, every progress callback invocation, and
the number of attempts performed. -/
structure DLState where
  fs : FS
  lastErr : Option AErr
  sleeps : List (Nat × Nat)
  requests : List (Option (List Nat))
  calls : List (Nat × Option Nat)
  attempts : Nat
deriving Repr, DecidableEq

deriving instance DecidableEq for Except

structure DLOut where
  result : Except Err String
  state : DLState
deriving Repr, DecidableEq

/-- the retry loop of download: `attempt` attempts already made, `rem`
remaining; a failing attempt with attempts remaining records the backoff
min(2^(attempt-1), 30) unless it came from the continue path; exhaustion
raises the terminal error wrapping the url and the last error. -/
def downloadGo (maxSize : Nat) (md5hex : List Nat → String) (url : URL)
    (cb : Option (Nat → Option Nat → Bool)) (cbCount : Nat)
    (oracle : Nat → NetResult) (retries : Nat) :
    Nat → Nat → DLState → DLOut
  | _, 0, st => ⟨.error (.exhausted url retries st.lastErr), st⟩
  | attempt, rem + 1, st =>
    let a := attempt + 1
    let ao := attemptOnce maxSize md5hex url cb cbCount (oracle a) st.fs
    let st1 : DLState :=
      { st with fs := ao.fs, requests := st.requests ++ [ao.sent],
                calls := st.calls ++ ao.calls, attempts := a }
    match ao.res with
    | .success p => ⟨.ok p, st1⟩
    | .failNoBackoff e =>
      downloadGo maxSize md5hex url cb cbCount oracle retries a rem
        { st1 with lastErr := some e }
    | .fail e =>
      let st2 := { st1 with lastErr := some e }
      if a < retries then
        downloadGo maxSize md5hex url cb cbCount oracle retries a rem
          { st2 with sleeps := st2.sleeps ++ [(a, min (2 ^ (a - 1)) 30)] }
      else downloadGo maxSize md5hex url cb cbCount oracle retries a rem st2

def initState (fs : FS) : DLState := ⟨fs, none, [], [], [], 0⟩

/-- download(url, cb, cb_count, retries): run up to `retries` attempts over
the given initial cache directory; the md5 of a byte list is an opaque
hash parameter and the network is an oracle giving each attempt's
response.  The source instantiates the cache as Cache('~/.dcache', 4e9). -/
def download (maxSize : Nat) (md5hex : List Nat → String) (url : URL)
    (cb : Option (Nat → Option Nat → Bool)) (cbCount : Nat) (retries : Nat)
    (oracle : Nat → NetResult) (fs : FS) : DLOut :=
  downloadGo maxSize md5hex url cb cbCount oracle retries 0 retries (initState fs)

def dcacheMaxSize : Nat := 10 ^ 9 * 4

/-- no entry for the url's key is present in the cache directory. -/
def patternFree (url : URL) (fs : FS) : Prop :=
  ∀ e ∈ fs.files, matchesKey (mangle url) e = false

instance (url : URL) (fs : FS) : Decidable (patternFree url fs) := by
  unfold patternFree; infer_instance

def urlA : URL := ⟨"https", "example.com", "/a", "", ""⟩

def urlB : URL := ⟨"https", "example.com", "/b", "", ""⟩

def fs400 : FS := ⟨[⟨"defold-a-00", List.replicate 400 0, 0⟩], 1⟩

def md5c : List Nat → String := fun _ => ""

def cbNever : Nat → Option Nat → Bool := fun _ _ => false

def oracleC6 : Nat → NetResult := fun _ => .ok ⟨200, some 4, none, none, [[7], [7], [7], [7]]⟩

def oracleNet : Nat → NetResult := fun _ => .netError

def oracle304 : Nat → NetResult := fun _ => .ok ⟨304, none, none, none, []⟩

def fsC4 : FS := ⟨[⟨"defold-a-6161", [], 0⟩], 1⟩

def sfxOf (key : String) : String :=
  let keyEnc := hexEncode (strBytes key)
  if keyEnc = "" then "00" else keyEnc

def cbAlways : Nat → Option Nat → Bool := fun _ _ => true

def rRaise : Response := ⟨200, some 4, none, none, [[7], [7]]⟩

def etag32 : String := "aaaaaaaaaaaaaaaaaaaaaaaaaaaaaaaa"

def md5bb : List Nat → String := fun _ => "bbbbbbbbbbbbbbbbbbbbbbbbbbbbbbbb"

def r2 : Response := ⟨200, some 2, none, some etag32, [[1], [2]]⟩

def rShort : Response := ⟨200, some 5, none, none, [[1], [2]]⟩

def rchk : Response := ⟨200, some 2, none, some etag32, [[3], [4]]⟩

theorem prefB_append (p l : List Char) : prefB p (p ++ l) = true := by
  induction p with
  | nil => rfl
  | cons a as ih => simp [prefB, ih]

theorem strStarts_append (a b : String) : strStarts (a ++ b) a = true := by
  simp [strStarts, String.data_append, prefB_append]

theorem strEnds_append (a b : String) : strEnds (a ++ b) b = true := by
  simp [strEnds, String.data_append, List.reverse_append, prefB_append]

theorem prefB_head_ne {a b : Char} (as bs : List Char) (h : a ≠ b) :
    prefB (a :: as) (b :: bs) = false := by
  simp [prefB, h]

theorem mem_insertDesc {x e : FileEnt} :
    ∀ {l : List FileEnt}, x ∈ insertDesc e l → x = e ∨ x ∈ l := by
  intro l
  induction l with
  | nil =>
    intro h
    simp only [insertDesc, List.mem_singleton] at h
    exact Or.inl h
  | cons y ys ih =>
    intro h
    by_cases hc : y.mtime ≤ e.mtime
    · rw [insertDesc, if_pos hc] at h
      rcases List.mem_cons.mp h with h1 | h1
      · exact Or.inl h1
      · exact Or.inr h1
    · rw [insertDesc, if_neg hc] at h
      rcases List.mem_cons.mp h with h1 | h1
      · exact Or.inr (List.mem_cons.mpr (Or.inl h1))
      · rcases ih h1 with h2 | h2
        · exact Or.inl h2
        · exact Or.inr (List.mem_cons.mpr (Or.inr h2))

theorem mem_sortByMtimeDesc {x : FileEnt} :
    ∀ {l : List FileEnt}, x ∈ sortByMtimeDesc l → x ∈ l := by
  intro l
  induction l with
  | nil => intro h; simp [sortByMtimeDesc] at h
  | cons y ys ih =>
    intro h
    rcases mem_insertDesc (l := ys.foldr insertDesc []) h with h1 | h1
    · simp [h1]
    · exact List.mem_cons_of_mem _ (ih h1)

theorem mem_keepScan {m s : Nat} {x : FileEnt} :
    ∀ {l : List FileEnt} {total : Nat}, x ∈ keepScan m s total l → x ∈ l := by
  intro l
  induction l with
  | nil => intro total h; simp [keepScan] at h
  | cons e rest ih =>
    intro total h
    by_cases hc : m < total + e.content.length + s
    · rw [keepScan] at h
      simp only [hc, if_pos] at h
      exact List.mem_cons_of_mem _ (ih h)
    · rw [keepScan] at h
      simp only [hc, if_neg, if_false] at h
      rcases List.mem_cons.mp h with h1 | h1
      · simp [h1]
      · exact List.mem_cons_of_mem _ (ih h1)

theorem patternFree_cachePut (m : Nat) (url : URL) (key : String) (size : Nat)
    (fs : FS) : patternFree url (cachePut m url key size fs).2 := by
  intro e he
  simp only [cachePut, accomodate] at he
  have h1 := mem_sortByMtimeDesc (mem_keepScan he)
  simp only [List.mem_filter] at h1
  have := h1.2
  simpa using this

theorem find?_append_none {p : FileEnt → Bool} :
    ∀ {l1 : List FileEnt} (l2 : List FileEnt),
    (∀ x ∈ l1, p x = false) → (l1 ++ l2).find? p = l2.find? p := by
  intro l1
  induction l1 with
  | nil => intro l2 _; rfl
  | cons a as ih =>
    intro l2 h
    have ha : p a = false := h a (List.mem_cons_self a as)
    rw [List.cons_append]
    simp only [List.find?_cons, ha]
    exact ih l2 (fun x hx => h x (List.mem_cons_of_mem a hx))

theorem sumSizes_cons (e : FileEnt) (l : List FileEnt) :
    sumSizes (e :: l) = e.content.length + sumSizes l := rfl

theorem keepScan_nil_of_over {m s : Nat} :
    ∀ (l : List FileEnt) (total : Nat), m < total + s → keepScan m s total l = [] := by
  intro l
  induction l with
  | nil => intro total _; rfl
  | cons e rest ih =>
    intro total h
    rw [keepScan]
    have hc : m < total + e.content.length + s := by omega
    rw [if_pos hc]
    exact ih _ (by omega)

theorem keepScan_sum {m s : Nat} :
    ∀ (l : List FileEnt) (total : Nat), total + s ≤ m →
      total + sumSizes (keepScan m s total l) + s ≤ m := by
  intro l
  induction l with
  | nil => intro total h; simpa [keepScan, sumSizes] using h
  | cons e rest ih =>
    intro total h
    rw [keepScan]
    by_cases hc : m < total + e.content.length + s
    · rw [if_pos hc, keepScan_nil_of_over rest _ hc]
      simpa [sumSizes] using h
    · rw [if_neg hc]
      have h2 := ih (total + e.content.length) (by omega)
      rw [sumSizes_cons]
      omega

theorem keepScan_take {m s : Nat} :
    ∀ (l : List FileEnt) (total : Nat), ∃ k, k ≤ l.length ∧
      keepScan m s total l = l.take k ∧
      (k = 0 ∨ total + sumSizes (l.take k) + s ≤ m) ∧
      (∀ j, k < j → j ≤ l.length → m < total + sumSizes (l.take j) + s) := by
  intro l
  induction l with
  | nil =>
    intro total
    refine ⟨0, by simp, by rw [keepScan]; rfl, Or.inl rfl, ?_⟩
    intro j h1 h2
    simp at h2
    omega
  | cons e rest ih =>
    intro total
    by_cases hc : m < total + e.content.length + s
    · refine ⟨0, by simp, ?_, Or.inl rfl, ?_⟩
      · rw [keepScan, if_pos hc, keepScan_nil_of_over rest _ hc]
        rfl
      · intro j h1 h2
        rcases j with _ | j1
        · omega
        · rw [List.take_succ_cons, sumSizes_cons]
          omega
    · obtain ⟨k, hk1, hk2, hk3, hk4⟩ := ih (total + e.content.length)
      refine ⟨k + 1, by simpa using hk1, ?_, ?_, ?_⟩
      · rw [keepScan, if_neg hc, hk2, List.take_succ_cons]
      · right
        rw [List.take_succ_cons, sumSizes_cons]
        rcases hk3 with h0 | h0
        · subst h0
          simp only [List.take_zero, sumSizes]
          simp only [List.foldr_nil]
          omega
        · omega
      · intro j h1 h2
        rcases j with _ | j1
        · omega
        · rw [List.take_succ_cons, sumSizes_cons]
          have := hk4 j1 (by omega) (by simpa using h2)
          omega

/-- C7: the cache key is the fixed tag "defold" followed by the URL's path
with every slash replaced by a dash, so any two URLs with equal path
components map to the same cache key regardless of scheme, host, query or
fragment. -/
theorem C7_cache_key_path_only :
    (∀ u v : URL, u.path = v.path → mangle u = mangle v) ∧
    (∀ u : URL, mangle u = "defold" ++ replaceSlash u.path) := by
  constructor
  · intro u v h
    simp [mangle, h]
  · intro u
    rfl

theorem C7_cache_key_path_only_witness :
    mangle ⟨"https", "d.defold.com", "/archive/x", "q=1", ""⟩ =
    mangle ⟨"http", "other.host", "/archive/x", "", "frag"⟩ :=
  C7_cache_key_path_only.1 _ _ rfl

theorem hexDigit_safe (n : Nat) : hexDigit n ≠ '-' ∧ hexDigit n ≠ 'p' := by
  unfold hexDigit
  split <;> exact ⟨by decide, by decide⟩

theorem hexChars_safe : ∀ (bs : List Nat), ∀ c ∈ hexChars bs, c ≠ '-' ∧ c ≠ 'p' := by
  intro bs
  induction bs with
  | nil => intro c hc; simp [hexChars] at hc
  | cons b rest ih =>
    intro c hc
    rcases List.mem_cons.mp hc with h1 | h1
    · subst h1; exact hexDigit_safe _
    · rcases List.mem_cons.mp h1 with h2 | h2
      · subst h2; exact hexDigit_safe _
      · exact ih c h2

theorem mk_data (s : String) : String.mk s.data = s := by
  obtain ⟨l⟩ := s
  rfl

theorem strEnds_tmp_false {s : String} {c : Char} {r : List Char}
    (h : s.data.reverse = c :: r) (hc : c ≠ 'p') : strEnds s "_tmp" = false := by
  have hrev : ("_tmp" : String).data.reverse = ['p', 'm', 't', '_'] := rfl
  unfold strEnds
  rw [hrev, h]
  have hb : ('p' == c) = false := beq_eq_false_iff_ne.mpr (Ne.symm hc)
  simp [prefB, hb]

theorem takeWhile_no_dash : ∀ (l1 l2 : List Char), (∀ c ∈ l1, c ≠ '-') →
    List.takeWhile (fun c => c != '-') (l1 ++ '-' :: l2) = l1 := by
  intro l1
  induction l1 with
  | nil =>
    intro l2 _
    simp [List.takeWhile]
  | cons a as ih =>
    intro l2 h
    have ha : a ≠ '-' := h a (List.mem_cons_self a as)
    simp only [List.cons_append, List.takeWhile_cons, bne_iff_ne, ne_eq, ha,
      not_false_eq_true, if_true, reduceIte]
    rw [ih l2 (fun c hc => h c (List.mem_cons_of_mem a hc))]

theorem afterLastDash_append (base sfx : String) (h : ∀ c ∈ sfx.data, c ≠ '-') :
    afterLastDash (base ++ "-" ++ sfx) = sfx := by
  unfold afterLastDash
  have hd : (base ++ "-" ++ sfx).data = base.data ++ '-' :: sfx.data := by
    simp [String.data_append]
  rw [hd, List.reverse_append]
  have h1 : (('-' :: sfx.data).reverse) = sfx.data.reverse ++ ['-'] := by
    simp
  rw [h1, List.append_assoc, List.singleton_append]
  rw [takeWhile_no_dash _ _ (fun c hc => h c (List.mem_reverse.mp hc))]
  simp [mk_data]

theorem hexDigitVal_hexDigit {n : Nat} (h : n < 16) :
    hexDigitVal (hexDigit n) = some n := by
  interval_cases n <;> rfl

theorem hexDecodeChars_hexChars : ∀ (bs : List Nat), (∀ b ∈ bs, b < 256) →
    hexDecodeChars (hexChars bs) = some bs := by
  intro bs
  induction bs with
  | nil => intro _; rfl
  | cons b rest ih =>
    intro h
    have hb : b < 256 := h b (List.mem_cons_self b rest)
    have h1 : hexDigitVal (hexDigit (b / 16)) = some (b / 16) :=
      hexDigitVal_hexDigit (by omega)
    have h2 : hexDigitVal (hexDigit (b % 16)) = some (b % 16) :=
      hexDigitVal_hexDigit (Nat.mod_lt _ (by norm_num))
    have h3 : hexDecodeChars (hexChars rest) = some rest :=
      ih (fun x hx => h x (List.mem_cons_of_mem b hx))
    rw [hexChars, hexDecodeChars, h1, h2, h3]
    have h4 : b / 16 * 16 + b % 16 = b := by omega
    show some ((b / 16 * 16 + b % 16) :: rest) = some (b :: rest)
    rw [h4]

theorem cacheGet_tail_entry {url : URL} {fs : FS} {lfree : List FileEnt}
    {e0 : FileEnt} {bs : List Nat}
    (hf : fs.files = lfree ++ [e0])
    (hfree : ∀ x ∈ lfree, matchesKey (mangle url) x = false)
    (hm : matchesKey (mangle url) e0 = true)
    (ht : strEnds e0.name "_tmp" = false)
    (hd : hexDecode (afterLastDash e0.name) = some bs) :
    cacheGet url fs = (some (e0.name, bs), touch e0.name fs) := by
  simp only [cacheGet]
  rw [hf, find?_append_none _ hfree]
  have hfind : List.find? (matchesKey (mangle url)) [e0] = some e0 := by
    simp [List.find?, hm]
  rw [hfind]
  simp [ht, hd]

theorem cacheGet_tail_tmp {url : URL} {fs : FS} {lfree : List FileEnt}
    {e0 : FileEnt}
    (hf : fs.files = lfree ++ [e0])
    (hfree : ∀ x ∈ lfree, matchesKey (mangle url) x = false)
    (hm : matchesKey (mangle url) e0 = true)
    (ht : strEnds e0.name "_tmp" = true) :
    cacheGet url fs = (none, removeFile e0.name fs) := by
  simp only [cacheGet]
  rw [hf, find?_append_none _ hfree]
  have hfind : List.find? (matchesKey (mangle url)) [e0] = some e0 := by
    simp [List.find?, hm]
  rw [hfind]
  simp [ht]

theorem strStarts_append2 (a b c : String) : strStarts (a ++ b ++ c) a = true := by
  have h := prefB_append a.data (b.data ++ c.data)
  simp only [strStarts, String.data_append, List.append_assoc]
  exact h

theorem ne_empty_data {s : String} (h : s ≠ "") : s.data ≠ [] := by
  intro hd
  apply h
  rw [← mk_data s, hd]

theorem hexChars_ne_nil {bs : List Nat} (h : bs ≠ []) : hexChars bs ≠ [] := by
  rcases bs with _ | ⟨b, r⟩
  · exact absurd rfl h
  · simp [hexChars]

theorem hexEncode_ne_empty {bs : List Nat} (h : bs ≠ []) : hexEncode bs ≠ "" := by
  rcases bs with _ | ⟨b, r⟩
  · exact absurd rfl h
  · intro hc
    have := congrArg String.data hc
    simp [hexEncode, hexChars] at this

theorem strEnds_keypath_false (base sfx : String) (hne : sfx.data ≠ [])
    (hsafe : ∀ c ∈ sfx.data, c ≠ 'p') :
    strEnds (base ++ "-" ++ sfx) "_tmp" = false := by
  have hdata : (base ++ "-" ++ sfx).data = base.data ++ '-' :: sfx.data := by
    simp [String.data_append]
  have hrevne : sfx.data.reverse ≠ [] := by simpa using hne
  obtain ⟨c, r, hcr⟩ := List.exists_cons_of_ne_nil hrevne
  have hcp : c ≠ 'p' := hsafe c (List.mem_reverse.mp (hcr ▸ List.mem_cons_self c r))
  have hrev : (base ++ "-" ++ sfx).data.reverse = c :: (r ++ '-' :: base.data.reverse) := by
    rw [hdata, List.reverse_append, List.reverse_cons, hcr]
    simp
  exact strEnds_tmp_false hrev hcp

theorem put_write_get (m : Nat) (url : URL) (key : String) (size : Nat) (fs : FS)
    (content : List Nat) {sfx : String} {bs : List Nat}
    (hfp : finalPath url key = mangle url ++ "-" ++ sfx)
    (hnd : ∀ c ∈ sfx.data, c ≠ '-')
    (hnp : strEnds (mangle url ++ "-" ++ sfx) "_tmp" = false)
    (hdec : hexDecode sfx = some bs) :
    (cacheGet url (writeFile (cachePut m url key size fs).1 content
        (cachePut m url key size fs).2)).1
      = some ((cachePut m url key size fs).1, bs) := by
  have hput1 : (cachePut m url key size fs).1 = finalPath url key := rfl
  have hf : (writeFile (cachePut m url key size fs).1 content
      (cachePut m url key size fs).2).files =
      ((cachePut m url key size fs).2.files.filter
        (fun e => e.name != (cachePut m url key size fs).1)) ++
      [⟨(cachePut m url key size fs).1, content,
        (cachePut m url key size fs).2.clock⟩] := rfl
  have hfree : ∀ x ∈ (cachePut m url key size fs).2.files.filter
      (fun e => e.name != (cachePut m url key size fs).1),
      matchesKey (mangle url) x = false := by
    intro x hx
    exact patternFree_cachePut m url key size fs x (List.mem_filter.mp hx).1
  have hm : matchesKey (mangle url)
      ⟨(cachePut m url key size fs).1, content,
        (cachePut m url key size fs).2.clock⟩ = true := by
    show strStarts (cachePut m url key size fs).1 (mangle url ++ "-") = true
    rw [hput1, hfp]
    exact strStarts_append _ _
  have ht : strEnds (FileEnt.mk (cachePut m url key size fs).1 content
      (cachePut m url key size fs).2.clock).name "_tmp" = false := by
    show strEnds (cachePut m url key size fs).1 "_tmp" = false
    rw [hput1, hfp]
    exact hnp
  have hd : hexDecode (afterLastDash (FileEnt.mk (cachePut m url key size fs).1
      content (cachePut m url key size fs).2.clock).name) = some bs := by
    show hexDecode (afterLastDash (cachePut m url key size fs).1) = some bs
    rw [hput1, hfp, afterLastDash_append _ _ hnd]
    exact hdec
  have hres := cacheGet_tail_entry hf hfree hm ht hd
  rw [hres]

/-- C3: after the eviction pass, the total size of the surviving entries
plus the incoming size never exceeds max_size, except when the incoming
size alone exceeds the budget, in which case everything is evicted and the
admission still returns the target path (no starvation); concretely, with
max_size 1000 and one 400-byte entry cached, admitting a 700-byte entry
evicts the 400-byte entry and the cache ends with only the new entry. -/
theorem C3_accomodate_within_budget :
    (∀ m size fs, size ≤ m →
      sumSizes ((accomodate m size fs).files) + size ≤ m) ∧
    (∀ m size fs, m < size → (accomodate m size fs).files = []) ∧
    (∀ m url key size fs, (cachePut m url key size fs).1 = finalPath url key) ∧
    ((writeFile (cachePut 1000 urlB "k" 700 fs400).1 (List.replicate 700 1)
        (cachePut 1000 urlB "k" 700 fs400).2).files.map FileEnt.name
      = [finalPath urlB "k"]) := by
  refine ⟨?_, ?_, fun m url key size fs => rfl, by decide⟩
  · intro m size fs h
    have h2 := keepScan_sum (m := m) (s := size) (sortByMtimeDesc fs.files) 0 (by omega)
    simpa [accomodate] using h2
  · intro m size fs h
    exact keepScan_nil_of_over (sortByMtimeDesc fs.files) 0 (by omega)

theorem C3_accomodate_within_budget_witness :
    (sumSizes ((accomodate 10 4 ⟨[⟨"defold-x-00", [1, 2, 3], 0⟩], 1⟩).files) + 4 ≤ 10) ∧
    (accomodate 3 5 fs400).files = [] :=
  ⟨C3_accomodate_within_budget.1 10 4 _ (by decide),
   C3_accomodate_within_budget.2.1 3 5 fs400 (by decide)⟩

/-- C8: the eviction scan accumulates the size of every scanned entry,
deleted or not, so the survivors are exactly the longest MRU-first prefix
of the sorted listing whose cumulative size plus the incoming size stays
within max_size; once the running total has overflowed, every subsequent
entry is deleted regardless of its own size. -/
theorem C8_survivors_longest_fitting_run :
    (∀ m size fs,
      (accomodate m size fs).files
        = (sortByMtimeDesc fs.files).take ((accomodate m size fs).files.length) ∧
      ((accomodate m size fs).files = [] ∨
        sumSizes ((accomodate m size fs).files) + size ≤ m) ∧
      (∀ j, (accomodate m size fs).files.length < j →
        j ≤ (sortByMtimeDesc fs.files).length →
        m < sumSizes ((sortByMtimeDesc fs.files).take j) + size)) ∧
    (∀ m size total l, m < total + size → keepScan m size total l = []) := by
  constructor
  · intro m size fs
    obtain ⟨k, hk1, hk2, hk3, hk4⟩ :=
      keepScan_take (m := m) (s := size) (sortByMtimeDesc fs.files) 0
    have hfiles : (accomodate m size fs).files = (sortByMtimeDesc fs.files).take k := hk2
    have hlen : (accomodate m size fs).files.length = k := by
      rw [hfiles, List.length_take]
      omega
    refine ⟨?_, ?_, ?_⟩
    · rw [hlen, hfiles]
    · rcases hk3 with h0 | h0
      · left
        rw [hfiles, h0]
        rfl
      · right
        rw [hfiles]
        omega
    · intro j h1 h2
      have h3 := hk4 j (by omega) h2
      omega
  · intro m size total l h
    exact keepScan_nil_of_over l total h

theorem C8_survivors_longest_fitting_run_witness :
    keepScan 5 9 2 [⟨"x", [0, 0], 0⟩] = [] ∧
    1000 < sumSizes ((sortByMtimeDesc fs400.files).take 1) + 700 :=
  ⟨(C8_survivors_longest_fitting_run.2) 5 9 2 _ (by decide),
   ((C8_survivors_longest_fitting_run.1) 1000 700 fs400).2.2 1 (by decide) (by decide)⟩

/-- C9: put followed by creating the returned file round-trips through get
for a non-empty ASCII validator (get returns the path and the validator's
bytes); an empty validator is stored as the placeholder suffix "00", which
get decodes to the single byte 0, not to empty bytes. -/
theorem C9_put_get_roundtrip :
    (∀ m url key size fs content, key ≠ "" → (∀ c ∈ key.data, c.toNat < 128) →
      (cacheGet url (writeFile (cachePut m url key size fs).1 content
          (cachePut m url key size fs).2)).1
        = some ((cachePut m url key size fs).1, strBytes key)) ∧
    (∀ m url size fs content,
      (cacheGet url (writeFile (cachePut m url "" size fs).1 content
          (cachePut m url "" size fs).2)).1
        = some ((cachePut m url "" size fs).1, [0])) ∧
    strBytes "" = [] ∧ ([0] : List Nat) ≠ [] := by
  refine ⟨?_, ?_, rfl, by decide⟩
  · intro m url key size fs content hne hascii
    have hbne : strBytes key ≠ [] := by
      simpa [strBytes] using ne_empty_data hne
    have hb256 : ∀ b ∈ strBytes key, b < 256 := by
      intro b hb
      obtain ⟨c, hc, rfl⟩ := List.mem_map.mp hb
      have := hascii c hc
      omega
    have hfp : finalPath url key = mangle url ++ "-" ++ hexEncode (strBytes key) := by
      simp only [finalPath]
      rw [if_neg (hexEncode_ne_empty hbne)]
    have hsafe := hexChars_safe (strBytes key)
    apply put_write_get m url key size fs content hfp
    · intro c hc
      exact (hsafe c hc).1
    · apply strEnds_keypath_false
      · exact hexChars_ne_nil hbne
      · intro c hc
        exact (hsafe c hc).2
    · exact hexDecodeChars_hexChars _ hb256
  · intro m url size fs content
    have hfp : finalPath url "" = mangle url ++ "-" ++ "00" := rfl
    apply put_write_get m url "" size fs content hfp
    · decide
    · apply strEnds_keypath_false
      · decide
      · decide
    · rfl

theorem C9_put_get_roundtrip_witness :
    (cacheGet urlA (writeFile (cachePut 50 urlA "aa" 5 ⟨[], 0⟩).1 [1, 2, 3]
        (cachePut 50 urlA "aa" 5 ⟨[], 0⟩).2)).1
      = some ((cachePut 50 urlA "aa" 5 ⟨[], 0⟩).1, strBytes "aa") :=
  C9_put_get_roundtrip.1 50 urlA "aa" 5 ⟨[], 0⟩ [1, 2, 3] (by decide) (by decide)

theorem streamChunks_nil (cb : Option (Nat → Option Nat → Bool)) (cbc : Nat)
    (es : Option Nat) (n : Nat) (cbI : Int) :
    streamChunks cb cbc es [] n cbI = ⟨[], [], false⟩ := rfl

theorem streamChunks_cons_empty (cb : Option (Nat → Option Nat → Bool)) (cbc : Nat)
    (es : Option Nat) {buf : List Nat} (rest : List (List Nat)) (n : Nat) (cbI : Int)
    (h : buf.isEmpty = true) :
    streamChunks cb cbc es (buf :: rest) n cbI = ⟨[], [], false⟩ := by
  rw [streamChunks]
  simp [h]

theorem streamChunks_cons_none (cbc : Nat) (es : Option Nat) {buf : List Nat}
    (rest : List (List Nat)) (n : Nat) (cbI : Int) (h : buf.isEmpty = false) :
    streamChunks none cbc es (buf :: rest) n cbI =
      ⟨buf ++ (streamChunks none cbc es rest (n + buf.length) cbI).content,
       (streamChunks none cbc es rest (n + buf.length) cbI).calls,
       (streamChunks none cbc es rest (n + buf.length) cbI).raised⟩ := by
  rw [streamChunks]
  simp [h]

theorem streamChunks_cons_nocall {cbf : Nat → Option Nat → Bool} (cbc : Nat)
    (es : Option Nat) {buf : List Nat} (rest : List (List Nat)) (n : Nat) (cbI : Int)
    (h : buf.isEmpty = false)
    (hcd : callDecision cbc (esTruthy es) n (n + buf.length) cbI = none) :
    streamChunks (some cbf) cbc es (buf :: rest) n cbI =
      ⟨buf ++ (streamChunks (some cbf) cbc es rest (n + buf.length) cbI).content,
       (streamChunks (some cbf) cbc es rest (n + buf.length) cbI).calls,
       (streamChunks (some cbf) cbc es rest (n + buf.length) cbI).raised⟩ := by
  rw [streamChunks]
  simp [h, hcd]

theorem streamChunks_cons_call_raise {cbf : Nat → Option Nat → Bool} (cbc : Nat)
    (es : Option Nat) {buf : List Nat} (rest : List (List Nat)) (n : Nat) {cbI i1 : Int}
    {call : Nat × Option Nat} (h : buf.isEmpty = false)
    (hcd : callDecision cbc (esTruthy es) n (n + buf.length) cbI = some (call, i1))
    (hr : cbf call.1 call.2 = true) :
    streamChunks (some cbf) cbc es (buf :: rest) n cbI = ⟨buf, [call], true⟩ := by
  rw [streamChunks]
  simp [h, hcd, hr]

theorem streamChunks_cons_call {cbf : Nat → Option Nat → Bool} (cbc : Nat)
    (es : Option Nat) {buf : List Nat} (rest : List (List Nat)) (n : Nat) {cbI i1 : Int}
    {call : Nat × Option Nat} (h : buf.isEmpty = false)
    (hcd : callDecision cbc (esTruthy es) n (n + buf.length) cbI = some (call, i1))
    (hr : cbf call.1 call.2 = false) :
    streamChunks (some cbf) cbc es (buf :: rest) n cbI =
      ⟨buf ++ (streamChunks (some cbf) cbc es rest (n + buf.length) i1).content,
       call :: (streamChunks (some cbf) cbc es rest (n + buf.length) i1).calls,
       (streamChunks (some cbf) cbc es rest (n + buf.length) i1).raised⟩ := by
  rw [streamChunks]
  simp [h, hcd, hr]

theorem callDecision_fst {cbc : Nat} {esT : Option Nat} {nO nN : Nat} {cbI i : Int}
    {call : Nat × Option Nat}
    (h : callDecision cbc esT nO nN cbI = some (call, i)) : call = (nN, esT) := by
  rcases esT with _ | es
  · simp only [callDecision] at h
    split at h
    · injection h with h1
      injection h1 with h2 h3
      exact h2.symm
    · exact Option.noConfusion h
  · simp only [callDecision] at h
    split at h
    · injection h with h1
      injection h1 with h2 h3
      exact h2.symm
    · exact Option.noConfusion h

theorem streamChunks_calls_gt (cb : Option (Nat → Option Nat → Bool)) (cbc : Nat)
    (es : Option Nat) :
    ∀ (chunks : List (List Nat)) (n : Nat) (cbI : Int),
      (∀ c ∈ (streamChunks cb cbc es chunks n cbI).calls, n < c.1) ∧
      (streamChunks cb cbc es chunks n cbI).calls.Pairwise (fun a b => a.1 < b.1) := by
  intro chunks
  induction chunks with
  | nil =>
    intro n cbI
    constructor
    · intro c hc
      simp [streamChunks_nil] at hc
    · simp [streamChunks_nil]
  | cons buf rest ih =>
    intro n cbI
    by_cases hb : buf.isEmpty
    · rw [streamChunks_cons_empty cb cbc es rest n cbI hb]
      exact ⟨fun c hc => by simp at hc, by simp⟩
    · have hb' : buf.isEmpty = false := by simpa using hb
      have hlen : 0 < buf.length := by
        have : buf ≠ [] := by
          intro h
          rw [h] at hb'
          simp at hb'
        exact List.length_pos.mpr this
      rcases cb with _ | cbf
      · rw [streamChunks_cons_none cbc es rest n cbI hb']
        obtain ⟨ih1, ih2⟩ := ih (n + buf.length) cbI
        exact ⟨fun c hc => by have := ih1 c hc; omega, ih2⟩
      · rcases hcd : callDecision cbc (esTruthy es) n (n + buf.length) cbI with _ | ⟨call, i1⟩
        · rw [streamChunks_cons_nocall cbc es rest n cbI hb' hcd]
          obtain ⟨ih1, ih2⟩ := ih (n + buf.length) cbI
          exact ⟨fun c hc => by have := ih1 c hc; omega, ih2⟩
        · have hfst : call = (n + buf.length, esTruthy es) := callDecision_fst hcd
          by_cases hr : cbf call.1 call.2
          · rw [streamChunks_cons_call_raise cbc es rest n hb' hcd hr]
            constructor
            · intro c hc
              simp at hc
              subst hc
              rw [hfst]
              simpa using hlen
            · simp
          · have hr' : cbf call.1 call.2 = false := by simpa using hr
            rw [streamChunks_cons_call cbc es rest n hb' hcd hr']
            obtain ⟨ih1, ih2⟩ := ih (n + buf.length) i1
            constructor
            · intro c hc
              rcases List.mem_cons.mp hc with h1 | h1
              · subst h1
                rw [hfst]
                simpa using hlen
              · have := ih1 c h1
                omega
            · refine List.Pairwise.cons ?_ ih2
              intro b hbmem
              have := ih1 b hbmem
              rw [hfst]
              simpa using this

theorem streamChunks_calls_snd (cb : Option (Nat → Option Nat → Bool)) (cbc : Nat)
    (es : Option Nat) :
    ∀ (chunks : List (List Nat)) (n : Nat) (cbI : Int),
      ∀ c ∈ (streamChunks cb cbc es chunks n cbI).calls, c.2 = esTruthy es := by
  intro chunks
  induction chunks with
  | nil =>
    intro n cbI c hc
    simp [streamChunks_nil] at hc
  | cons buf rest ih =>
    intro n cbI c hc
    by_cases hb : buf.isEmpty
    · rw [streamChunks_cons_empty cb cbc es rest n cbI hb] at hc
      simp at hc
    · have hb' : buf.isEmpty = false := by simpa using hb
      rcases cb with _ | cbf
      · rw [streamChunks_cons_none cbc es rest n cbI hb'] at hc
        exact ih (n + buf.length) cbI c hc
      · rcases hcd : callDecision cbc (esTruthy es) n (n + buf.length) cbI with _ | ⟨call, i1⟩
        · rw [streamChunks_cons_nocall cbc es rest n cbI hb' hcd] at hc
          exact ih (n + buf.length) cbI c hc
        · have hfst : call = (n + buf.length, esTruthy es) := callDecision_fst hcd
          by_cases hr : cbf call.1 call.2
          · rw [streamChunks_cons_call_raise cbc es rest n hb' hcd hr] at hc
            simp at hc
            subst hc
            rw [hfst]
          · have hr' : cbf call.1 call.2 = false := by simpa using hr
            rw [streamChunks_cons_call cbc es rest n hb' hcd hr'] at hc
            rcases List.mem_cons.mp hc with h1 | h1
            · subst h1
              rw [hfst]
            · exact ih (n + buf.length) i1 c h1

theorem esTruthy_pos {x : Option Nat} {es : Nat} (h : esTruthy x = some es) : 0 < es := by
  rcases x with _ | k
  · simp [esTruthy] at h
  · rcases k with _ | k1
    · simp [esTruthy] at h
    · simp [esTruthy] at h
      omega

theorem streamChunks_calls_bound (cbf : Nat → Option Nat → Bool) (cbc : Nat)
    {esz : Option Nat} {es : Nat} (hes : esTruthy esz = some es) :
    ∀ (chunks : List (List Nat)) (n : Nat) (cbI : Int), cbI ≤ (cbc : Int) →
      n + (streamChunks (some cbf) cbc esz chunks n cbI).content.length ≤ es →
      ((streamChunks (some cbf) cbc esz chunks n cbI).calls.length : Int)
        ≤ (cbc : Int) - cbI := by
  have hpos : 0 < es := esTruthy_pos hes
  intro chunks
  induction chunks with
  | nil =>
    intro n cbI h1 h2
    rw [streamChunks_nil]
    simpa using h1
  | cons buf rest ih =>
    intro n cbI h1 h2
    by_cases hb : buf.isEmpty
    · rw [streamChunks_cons_empty (some cbf) cbc esz rest n cbI hb]
      simpa using h1
    · have hb' : buf.isEmpty = false := by simpa using hb
      rcases hcd : callDecision cbc (esTruthy esz) n (n + buf.length) cbI with _ | ⟨call, i1⟩
      · rw [streamChunks_cons_nocall cbc esz rest n cbI hb' hcd]
        rw [streamChunks_cons_nocall cbc esz rest n cbI hb' hcd] at h2
        have h3 : (n + buf.length) +
            (streamChunks (some cbf) cbc esz rest (n + buf.length) cbI).content.length
            ≤ es := by
          simp only [List.length_append] at h2
          omega
        exact ih (n + buf.length) cbI h1 h3
      · have hstep : i1 = ((n + buf.length) * cbc / es : Nat) ∧ cbI < i1 := by
          rw [hes] at hcd
          simp only [callDecision] at hcd
          split at hcd
          · have h4 := Option.some.inj hcd
            injection h4 with h5 h6
            constructor
            · exact h6.symm
            · rw [← h6]
              assumption
          · exact Option.noConfusion hcd
        by_cases hr : cbf call.1 call.2
        · rw [streamChunks_cons_call_raise cbc esz rest n hb' hcd hr]
          rw [streamChunks_cons_call_raise cbc esz rest n hb' hcd hr] at h2
          have hn1 : n + buf.length ≤ es := by simpa using h2
          have hsn : (n + buf.length) * cbc / es ≤ cbc := by
            calc (n + buf.length) * cbc / es ≤ es * cbc / es :=
                  Nat.div_le_div_right (Nat.mul_le_mul_right cbc hn1)
            _ = cbc := Nat.mul_div_cancel_left cbc hpos
          have : ((1 : Nat) : Int) ≤ (cbc : Int) - cbI := by
            obtain ⟨hi1, hlt⟩ := hstep
            have : ((((n + buf.length) * cbc / es : Nat)) : Int) ≤ (cbc : Int) := by
              exact_mod_cast hsn
            omega
          simpa using this
        · have hr' : cbf call.1 call.2 = false := by simpa using hr
          rw [streamChunks_cons_call cbc esz rest n hb' hcd hr']
          rw [streamChunks_cons_call cbc esz rest n hb' hcd hr'] at h2
          simp only [List.length_append] at h2
          have hn1 : n + buf.length ≤ es := by omega
          have hsn : (n + buf.length) * cbc / es ≤ cbc := by
            calc (n + buf.length) * cbc / es ≤ es * cbc / es :=
                  Nat.div_le_div_right (Nat.mul_le_mul_right cbc hn1)
            _ = cbc := Nat.mul_div_cancel_left cbc hpos
          obtain ⟨hi1, hlt⟩ := hstep
          have hi1le : i1 ≤ (cbc : Int) := by
            rw [hi1]
            exact_mod_cast hsn
          have h3 : (n + buf.length) +
              (streamChunks (some cbf) cbc esz rest (n + buf.length) i1).content.length
              ≤ es := by omega
          have h4 := ih (n + buf.length) i1 hi1le h3
          simp only [List.length_cons]
          push_cast
          push_cast at h4
          omega

/-- C6 counterexample: with cb_count = 2 and a declared size of 4 delivered
in four 1-byte chunks, the callback fires three times (steps 0, 1 and 2):
the claimed bound of at most cb_count invocations is exceeded. -/
theorem C6_counterexample_calls_exceed_cb_count :
    (download 1000 md5c urlB (some cbNever) 2 1 oracleC6 ⟨[], 0⟩).state.calls
      = [(1, some 4), (2, some 4), (4, some 4)] ∧
    ¬ ((download 1000 md5c urlB (some cbNever) 2 1 oracleC6 ⟨[], 0⟩).state.calls.length
        ≤ 2) := by
  decide

/-- C6 amended: in one streaming pass, when the declared size is nonzero
the callback fires at most cb_count + 1 times provided the received bytes
do not exceed the declared size; every invocation carries the truthy
declared size as its total (None when the size is unknown or zero); and
the reported byte counts are strictly increasing — never shrinking. -/
theorem C6_progress_callback_amended :
    (∀ (cbf : Nat → Option Nat → Bool) (cbc : Nat) (esz : Option Nat) (es : Nat)
        (chunks : List (List Nat)), esTruthy esz = some es →
      (streamChunks (some cbf) cbc esz chunks 0 (-1)).content.length ≤ es →
      (streamChunks (some cbf) cbc esz chunks 0 (-1)).calls.length ≤ cbc + 1) ∧
    (∀ cb cbc esz chunks n cbI, ∀ c ∈ (streamChunks cb cbc esz chunks n cbI).calls,
      c.2 = esTruthy esz) ∧
    (∀ cb cbc esz chunks n cbI,
      (streamChunks cb cbc esz chunks n cbI).calls.Pairwise (fun a b => a.1 < b.1)) := by
  refine ⟨?_, streamChunks_calls_snd,
    fun cb cbc esz chunks n cbI => (streamChunks_calls_gt cb cbc esz chunks n cbI).2⟩
  intro cbf cbc esz es chunks hes hlen
  have h := streamChunks_calls_bound cbf cbc hes chunks 0 (-1) (by omega)
    (by simpa using hlen)
  omega

theorem C6_progress_callback_amended_witness :
    ((streamChunks (some cbNever) 2 (some 4) [[7], [7], [7], [7]] 0 (-1)).calls.length
        ≤ 3) ∧
    ((1 : Nat), some (4 : Nat)).2 = esTruthy (some 4) :=
  ⟨C6_progress_callback_amended.1 cbNever 2 (some 4) 4 [[7], [7], [7], [7]]
      rfl (by decide),
   C6_progress_callback_amended.2.1 (some cbNever) 2 (some 4) [[7], [7], [7], [7]]
      0 (-1) (1, some 4) (by decide)⟩

theorem downloadGo_sleeps_ext (m : Nat) (md5 : List Nat → String) (url : URL)
    (cb : Option (Nat → Option Nat → Bool)) (cbc : Nat) (oracle : Nat → NetResult)
    (retries : Nat) :
    ∀ (rem attempt : Nat) (st : DLState),
      ∃ rest, (downloadGo m md5 url cb cbc oracle retries attempt rem st).state.sleeps
          = st.sleeps ++ rest ∧ ∀ p ∈ rest, attempt < p.1 := by
  intro rem
  induction rem with
  | zero =>
    intro attempt st
    exact ⟨[], by simp [downloadGo], by simp⟩
  | succ r ih =>
    intro attempt st
    simp only [downloadGo]
    rcases hres : (attemptOnce m md5 url cb cbc (oracle (attempt + 1)) st.fs).res
      with p | e | e
    all_goals dsimp only
    · exact ⟨[], by simp, by simp⟩
    · by_cases hlt : attempt + 1 < retries
      · rw [if_pos hlt]
        obtain ⟨rest, h1, h2⟩ := ih (attempt + 1) _
        refine ⟨(attempt + 1, min (2 ^ (attempt + 1 - 1)) 30) :: rest, ?_, ?_⟩
        · rw [h1]
          simp
        · intro q hq
          rcases List.mem_cons.mp hq with h3 | h3
          · subst h3
            omega
          · have := h2 q h3
            omega
      · rw [if_neg hlt]
        obtain ⟨rest, h1, h2⟩ := ih (attempt + 1) _
        refine ⟨rest, h1, ?_⟩
        intro q hq
        have := h2 q hq
        omega
    · obtain ⟨rest, h1, h2⟩ := ih (attempt + 1) _
      refine ⟨rest, h1, ?_⟩
      intro q hq
      have := h2 q hq
      omega

/-- C4: the attempt does fail with the cache-corruption error when a 304
arrives and the cached file is empty, but the retry's request again carries
the If-None-Match validator (bytes 0x61 0x61): the `hit = None` assignment
before `continue` is dead because the loop re-runs `hit = c.get(url)`, so
no full re-fetch is forced, contradicting the claim and the source's own
comment. -/
theorem C4_retry_resends_conditional_header :
    (download 1000 md5c urlA none 10 2 oracle304 fsC4).state.requests
      = [some [97, 97], some [97, 97]] ∧
    (download 1000 md5c urlA none 10 2 oracle304 fsC4).result
      = .error (.exhausted urlA 2 (some .cacheCorruption)) := by
  decide

theorem finalPath_eq (url : URL) (key : String) :
    finalPath url key = mangle url ++ "-" ++ sfxOf key := rfl

theorem matchesKey_final (url : URL) (key : String) (c : List Nat) (t : Nat) :
    matchesKey (mangle url) ⟨finalPath url key, c, t⟩ = true := by
  show strStarts (finalPath url key) (mangle url ++ "-") = true
  rw [finalPath_eq]
  exact strStarts_append _ _

theorem matchesKey_tmp (url : URL) (key : String) (c : List Nat) (t : Nat) :
    matchesKey (mangle url) ⟨finalPath url key ++ "_tmp", c, t⟩ = true := by
  show strStarts (finalPath url key ++ "_tmp") (mangle url ++ "-") = true
  rw [finalPath_eq]
  exact strStarts_append2 _ _ _

theorem strEnds_tmp_name (s : String) : strEnds (s ++ "_tmp") "_tmp" = true :=
  strEnds_append s "_tmp"

theorem hasFile_false_of_patternFree {url : URL} {fs : FS}
    (h : patternFree url fs) (key : String) :
    hasFile fs (finalPath url key) = false := by
  unfold hasFile
  rw [List.any_eq_false]
  intro x hx
  intro hc
  have hname : x.name = finalPath url key := by simpa using hc
  have hmk : matchesKey (mangle url) x = true := by
    unfold matchesKey
    rw [hname, finalPath_eq]
    exact strStarts_append _ _
  rw [h x hx] at hmk
  exact Bool.noConfusion hmk

theorem runFinally_after_fail (m sz : Nat) (url : URL) (etag : String)
    (content : List Nat) (fs : FS) :
    patternFree url (runFinally url (writeFile (finalPath url etag ++ "_tmp") content
      (removeFile (finalPath url etag ++ "_tmp") (cachePut m url etag sz fs).2))) := by
  set tmp := finalPath url etag ++ "_tmp" with htmp
  set put2 := (cachePut m url etag sz fs).2 with hput2
  set fs3 := writeFile tmp content (removeFile tmp put2) with hfs3
  have hf : fs3.files = ((removeFile tmp put2).files.filter
      (fun e => e.name != tmp)) ++
      [⟨tmp, content, (removeFile tmp put2).clock⟩] := rfl
  have hfree : ∀ x ∈ (removeFile tmp put2).files.filter (fun e => e.name != tmp),
      matchesKey (mangle url) x = false := by
    intro x hx
    have h1 : x ∈ put2.files := by
      have h2 := (List.mem_filter.mp hx).1
      exact (List.mem_filter.mp h2).1
    exact patternFree_cachePut m url etag sz fs x h1
  have hm : matchesKey (mangle url)
      (⟨tmp, content, (removeFile tmp put2).clock⟩ : FileEnt) = true :=
    matchesKey_tmp url etag _ _
  have hget := cacheGet_tail_tmp hf hfree hm (strEnds_tmp_name _)
  unfold runFinally
  rw [hget]
  show patternFree url (removeFile tmp fs3)
  intro x hx
  have hx1 : x ∈ fs3.files.filter (fun e => e.name != tmp) := hx
  obtain ⟨hmem, hne⟩ := List.mem_filter.mp hx1
  rw [hf] at hmem
  rcases List.mem_append.mp hmem with h1 | h1
  · exact hfree x h1
  · have hx3 : x = (⟨tmp, content, (removeFile tmp put2).clock⟩ : FileEnt) := by
      simpa using h1
    rw [hx3] at hne
    simp at hne

theorem etagHint_ne_empty {s h : String} (hx : etagHint s = some h) : h ≠ "" := by
  unfold etagHint at hx
  dsimp only at hx
  split at hx
  · have h1 := Option.some.inj hx
    subst h1
    rename_i hcond
    intro hc
    rw [hc] at hcond
    simp at hcond
  · exact Option.noConfusion hx

theorem extractMD5_ne_empty {a b : Option String} {h : String}
    (hx : extractMD5 a b = some h) : h ≠ "" := by
  unfold extractMD5 at hx
  rcases a with _ | s
  · exact etagHint_ne_empty hx
  · dsimp only at hx
    by_cases hs : s = ""
    · rw [if_pos hs] at hx
      exact etagHint_ne_empty hx
    · rw [if_neg hs] at hx
      rcases hb : b64decode s with _ | bs
      · rw [hb] at hx
        exact etagHint_ne_empty hx
      · rw [hb] at hx
        dsimp only [Option.map] at hx
        by_cases he : hexEncode bs = ""
        · rw [if_pos he] at hx
          exact etagHint_ne_empty hx
        · rw [if_neg he] at hx
          have h2 := Option.some.inj hx
          rw [← h2]
          exact he

theorem attempt200_raised (m : Nat) (md5 : List Nat → String) (url : URL)
    (cb : Option (Nat → Option Nat → Bool)) (cbc : Nat) (r : Response) (fs : FS)
    (h : (streamChunks cb cbc r.contentLength r.body 0 (-1)).raised = true) :
    attempt200 m md5 url cb cbc r fs =
      ⟨.fail .callbackRaised,
       writeFile (finalPath url (r.etag.getD "") ++ "_tmp")
         (streamChunks cb cbc r.contentLength r.body 0 (-1)).content
         (removeFile (finalPath url (r.etag.getD "") ++ "_tmp")
           (cachePut m url (r.etag.getD "") (r.contentLength.getD 0) fs).2),
       (streamChunks cb cbc r.contentLength r.body 0 (-1)).calls⟩ := by
  unfold attempt200
  dsimp only
  set so := streamChunks cb cbc r.contentLength r.body 0 (-1) with hso
  rw [h]
  try rfl

theorem attempt200_incomplete (m : Nat) (md5 : List Nat → String) (url : URL)
    (cb : Option (Nat → Option Nat → Bool)) (cbc : Nat) (r : Response) (fs : FS)
    {es : Nat} (hes : r.contentLength = some es)
    (hr : (streamChunks cb cbc r.contentLength r.body 0 (-1)).raised = false)
    (hne : (streamChunks cb cbc r.contentLength r.body 0 (-1)).content.length ≠ es) :
    attempt200 m md5 url cb cbc r fs =
      ⟨.fail (.incomplete
          (streamChunks cb cbc r.contentLength r.body 0 (-1)).content.length es),
       writeFile (finalPath url (r.etag.getD "") ++ "_tmp")
         (streamChunks cb cbc r.contentLength r.body 0 (-1)).content
         (removeFile (finalPath url (r.etag.getD "") ++ "_tmp")
           (cachePut m url (r.etag.getD "") (r.contentLength.getD 0) fs).2),
       (streamChunks cb cbc r.contentLength r.body 0 (-1)).calls⟩ := by
  unfold attempt200
  dsimp only
  set so := streamChunks cb cbc r.contentLength r.body 0 (-1) with hso
  rw [hr]
  rw [hes]
  dsimp only
  rw [if_pos hne]
  try rfl

theorem attempt200_checksum (m : Nat) (md5 : List Nat → String) (url : URL)
    (cb : Option (Nat → Option Nat → Bool)) (cbc : Nat) (r : Response) (fs : FS)
    {h : String}
    (hr : (streamChunks cb cbc r.contentLength r.body 0 (-1)).raised = false)
    (hsize : r.contentLength = none ∨
      r.contentLength
        = some (streamChunks cb cbc r.contentLength r.body 0 (-1)).content.length)
    (hmd5 : extractMD5 r.contentMD5 r.etag = some h)
    (hmm : pyLower (md5 (streamChunks cb cbc r.contentLength r.body 0 (-1)).content)
      ≠ pyLower h) :
    attempt200 m md5 url cb cbc r fs =
      ⟨.fail .checksum,
       writeFile (finalPath url (r.etag.getD "") ++ "_tmp")
         (streamChunks cb cbc r.contentLength r.body 0 (-1)).content
         (removeFile (finalPath url (r.etag.getD "") ++ "_tmp")
           (cachePut m url (r.etag.getD "") (r.contentLength.getD 0) fs).2),
       (streamChunks cb cbc r.contentLength r.body 0 (-1)).calls⟩ := by
  have hnone := extractMD5_ne_empty hmd5
  unfold attempt200
  dsimp only
  set so := streamChunks cb cbc r.contentLength r.body 0 (-1) with hso
  rw [hr]
  rcases hsize with hsize | hsize
  · rw [hsize]
    dsimp only
    rw [hmd5]
    dsimp only
    rw [if_neg hnone, if_pos hmm]
    rfl
  · rw [hsize]
    dsimp only
    rw [if_neg (show ¬ (so.content.length ≠ so.content.length) from fun hc => hc rfl)]
    rw [hmd5]
    dsimp only
    rw [if_neg hnone, if_pos hmm]
    rfl

theorem attemptOnce_ok200 (m : Nat) (md5 : List Nat → String) (url : URL)
    (cb : Option (Nat → Option Nat → Bool)) (cbc : Nat) (r : Response) (fs : FS)
    (hcode : r.code = 200) :
    (attemptOnce m md5 url cb cbc (.ok r) fs).res
        = (attempt200 m md5 url cb cbc r (cacheGet url fs).2).res ∧
    (attemptOnce m md5 url cb cbc (.ok r) fs).fs
        = runFinally url (attempt200 m md5 url cb cbc r (cacheGet url fs).2).fs ∧
    (attemptOnce m md5 url cb cbc (.ok r) fs).calls
        = (attempt200 m md5 url cb cbc r (cacheGet url fs).2).calls := by
  unfold attemptOnce
  dsimp only
  rcases hget : (cacheGet url fs).1 with _ | pr
  · rw [hcode]
    dsimp only
    rw [if_neg (show ¬ ((200 : Nat) ≠ 200) from fun hc => hc rfl)]
    exact ⟨rfl, rfl, rfl⟩
  · rw [hcode]
    dsimp only
    rw [if_neg (show ¬ ((200 : Nat) = 304) by decide)]
    rw [if_neg (show ¬ ((200 : Nat) ≠ 200) from fun hc => hc rfl)]
    exact ⟨rfl, rfl, rfl⟩

theorem attemptOnce_incomplete_clean (m : Nat) (md5 : List Nat → String) (url : URL)
    (cb : Option (Nat → Option Nat → Bool)) (cbc : Nat) (r : Response) (fs : FS)
    {es : Nat} (hcode : r.code = 200) (hes : r.contentLength = some es)
    (hr : (streamChunks cb cbc r.contentLength r.body 0 (-1)).raised = false)
    (hne : (streamChunks cb cbc r.contentLength r.body 0 (-1)).content.length ≠ es) :
    (attemptOnce m md5 url cb cbc (.ok r) fs).res
        = .fail (.incomplete
            (streamChunks cb cbc r.contentLength r.body 0 (-1)).content.length es) ∧
    patternFree url (attemptOnce m md5 url cb cbc (.ok r) fs).fs := by
  obtain ⟨h1, h2, _⟩ := attemptOnce_ok200 m md5 url cb cbc r fs hcode
  rw [h1, h2, attempt200_incomplete m md5 url cb cbc r _ hes hr hne]
  exact ⟨rfl, runFinally_after_fail m _ url _ _ _⟩

theorem attemptOnce_checksum_clean (m : Nat) (md5 : List Nat → String) (url : URL)
    (cb : Option (Nat → Option Nat → Bool)) (cbc : Nat) (r : Response) (fs : FS)
    {h : String} (hcode : r.code = 200)
    (hr : (streamChunks cb cbc r.contentLength r.body 0 (-1)).raised = false)
    (hsize : r.contentLength = none ∨
      r.contentLength
        = some (streamChunks cb cbc r.contentLength r.body 0 (-1)).content.length)
    (hmd5 : extractMD5 r.contentMD5 r.etag = some h)
    (hmm : pyLower (md5 (streamChunks cb cbc r.contentLength r.body 0 (-1)).content)
      ≠ pyLower h) :
    (attemptOnce m md5 url cb cbc (.ok r) fs).res = .fail .checksum ∧
    patternFree url (attemptOnce m md5 url cb cbc (.ok r) fs).fs := by
  obtain ⟨h1, h2, _⟩ := attemptOnce_ok200 m md5 url cb cbc r fs hcode
  rw [h1, h2, attempt200_checksum m md5 url cb cbc r _ hr hsize hmd5 hmm]
  exact ⟨rfl, runFinally_after_fail m _ url _ _ _⟩

theorem attemptOnce_raised_clean (m : Nat) (md5 : List Nat → String) (url : URL)
    (cb : Option (Nat → Option Nat → Bool)) (cbc : Nat) (r : Response) (fs : FS)
    (hcode : r.code = 200)
    (hr : (streamChunks cb cbc r.contentLength r.body 0 (-1)).raised = true) :
    (attemptOnce m md5 url cb cbc (.ok r) fs).res = .fail .callbackRaised ∧
    patternFree url (attemptOnce m md5 url cb cbc (.ok r) fs).fs := by
  obtain ⟨h1, h2, _⟩ := attemptOnce_ok200 m md5 url cb cbc r fs hcode
  rw [h1, h2, attempt200_raised m md5 url cb cbc r _ hr]
  exact ⟨rfl, runFinally_after_fail m _ url _ _ _⟩

theorem downloadGo_allFail (m : Nat) (md5 : List Nat → String) (url : URL)
    (cb : Option (Nat → Option Nat → Bool)) (cbc : Nat) (oracle : Nat → NetResult)
    (retries : Nat) (E : Nat → AErr)
    (H : ∀ k, 0 < k → k ≤ retries → ∀ fs2,
        (attemptOnce m md5 url cb cbc (oracle k) fs2).res = .fail (E k) ∧
        patternFree url (attemptOnce m md5 url cb cbc (oracle k) fs2).fs) :
    ∀ (rem attempt : Nat) (st : DLState), 0 < rem → attempt + rem = retries →
      (downloadGo m md5 url cb cbc oracle retries attempt rem st).result
          = .error (.exhausted url retries (some (E retries))) ∧
      (downloadGo m md5 url cb cbc oracle retries attempt rem st).state.attempts
          = retries ∧
      patternFree url
        (downloadGo m md5 url cb cbc oracle retries attempt rem st).state.fs := by
  intro rem
  induction rem with
  | zero =>
    intro attempt st h0 _
    exact absurd h0 (by omega)
  | succ rr ih =>
    intro attempt st _ hsum
    obtain ⟨hres, hpf⟩ := H (attempt + 1) (by omega) (by omega) st.fs
    simp only [downloadGo]
    rw [hres]
    dsimp only
    by_cases hlt : attempt + 1 < retries
    · rw [if_pos hlt]
      exact ih (attempt + 1) _ (by omega) (by omega)
    · rw [if_neg hlt]
      have hr0 : rr = 0 := by omega
      subst hr0
      have heq : attempt + 1 = retries := by omega
      simp only [downloadGo]
      refine ⟨?_, ?_, ?_⟩
      · dsimp only
        rw [heq]
      · dsimp only
        omega
      · dsimp only
        exact hpf

theorem downloadGo_shape (m : Nat) (md5 : List Nat → String) (url : URL)
    (cb : Option (Nat → Option Nat → Bool)) (cbc : Nat) (oracle : Nat → NetResult)
    (retries : Nat) :
    ∀ (rem attempt : Nat) (st : DLState),
      (∃ p, (downloadGo m md5 url cb cbc oracle retries attempt rem st).result
          = .ok p) ∨
      (∃ last, (downloadGo m md5 url cb cbc oracle retries attempt rem st).result
          = .error (.exhausted url retries last)) := by
  intro rem
  induction rem with
  | zero =>
    intro attempt st
    exact Or.inr ⟨st.lastErr, rfl⟩
  | succ rr ih =>
    intro attempt st
    simp only [downloadGo]
    rcases hres : (attemptOnce m md5 url cb cbc (oracle (attempt + 1)) st.fs).res
      with p | e | e
    all_goals dsimp only
    · exact Or.inl ⟨p, rfl⟩
    · by_cases hlt : attempt + 1 < retries
      · rw [if_pos hlt]
        exact ih _ _
      · rw [if_neg hlt]
        exact ih _ _
    · exact ih _ _

/-- C10: an exception raised by the user progress callback is treated as a
retryable per-attempt failure (recorded as the callback error), and the
caller of download only ever sees a success path or the terminal exhausted
RuntimeError — never a raw per-attempt error. -/
theorem C10_callback_error_never_escapes :
    (∀ (m : Nat) (md5 : List Nat → String) (url : URL)
        (cb : Option (Nat → Option Nat → Bool)) (cbc retries : Nat)
        (oracle : Nat → NetResult) (fs : FS),
      (∃ p, (download m md5 url cb cbc retries oracle fs).result = .ok p) ∨
      (∃ last, (download m md5 url cb cbc retries oracle fs).result
          = .error (.exhausted url retries last))) ∧
    (∀ (m : Nat) (md5 : List Nat → String) (url : URL)
        (cb : Option (Nat → Option Nat → Bool)) (cbc : Nat) (r : Response) (fs : FS),
      r.code = 200 →
      (streamChunks cb cbc r.contentLength r.body 0 (-1)).raised = true →
      (attemptOnce m md5 url cb cbc (.ok r) fs).res = .fail .callbackRaised) := by
  constructor
  · intro m md5 url cb cbc retries oracle fs
    exact downloadGo_shape m md5 url cb cbc oracle retries retries 0 (initState fs)
  · intro m md5 url cb cbc r fs hcode hr
    exact (attemptOnce_raised_clean m md5 url cb cbc r fs hcode hr).1

theorem C10_callback_error_never_escapes_witness :
    (attemptOnce 100 md5c urlA (some cbAlways) 1 (.ok rRaise) ⟨[], 0⟩).res
      = .fail .callbackRaised :=
  C10_callback_error_never_escapes.2 100 md5c urlA (some cbAlways) 1 rRaise ⟨[], 0⟩
    rfl (by decide)

/-- C2: when every attempt yields a 200 response whose checksum hint does
not match the body, download performs exactly `retries` attempts, raises
the terminal error naming the url and carrying the checksum error as the
last underlying error, and the final cache holds no entry for the url's
key — in particular none at the final cache path. -/
theorem C2_all_attempts_fail_exhausts_and_cache_clean :
    ∀ (m : Nat) (md5 : List Nat → String) (url : URL)
      (cb : Option (Nat → Option Nat → Bool)) (cbc : Nat) (oracle : Nat → NetResult)
      (retries : Nat) (fs : FS) (R : Nat → Response),
    0 < retries →
    (∀ k, 0 < k → k ≤ retries →
      oracle k = .ok (R k) ∧ (R k).code = 200 ∧
      (streamChunks cb cbc (R k).contentLength (R k).body 0 (-1)).raised = false ∧
      ((R k).contentLength = none ∨ (R k).contentLength
          = some (streamChunks cb cbc (R k).contentLength (R k).body 0 (-1)).content.length) ∧
      ∃ h, extractMD5 (R k).contentMD5 (R k).etag = some h ∧
        pyLower (md5 (streamChunks cb cbc (R k).contentLength (R k).body 0 (-1)).content)
          ≠ pyLower h) →
    (download m md5 url cb cbc retries oracle fs).result
        = .error (.exhausted url retries (some .checksum)) ∧
    (download m md5 url cb cbc retries oracle fs).state.attempts = retries ∧
    patternFree url (download m md5 url cb cbc retries oracle fs).state.fs ∧
    (∀ key, hasFile (download m md5 url cb cbc retries oracle fs).state.fs
        (finalPath url key) = false) := by
  intro m md5 url cb cbc oracle retries fs R hret hall
  have H : ∀ k, 0 < k → k ≤ retries → ∀ fs2,
      (attemptOnce m md5 url cb cbc (oracle k) fs2).res = .fail .checksum ∧
      patternFree url (attemptOnce m md5 url cb cbc (oracle k) fs2).fs := by
    intro k hk1 hk2 fs2
    obtain ⟨ho, hc, hr, hs, h, hmd5, hmm⟩ := hall k hk1 hk2
    rw [ho]
    exact attemptOnce_checksum_clean m md5 url cb cbc (R k) fs2 hc hr hs hmd5 hmm
  have main := downloadGo_allFail m md5 url cb cbc oracle retries (fun _ => .checksum)
    H retries 0 (initState fs) hret (by omega)
  exact ⟨main.1, main.2.1, main.2.2,
    fun key => hasFile_false_of_patternFree main.2.2 key⟩

theorem C2_all_attempts_fail_exhausts_and_cache_clean_witness :
    (download 1000 md5bb urlA none 10 2 (fun _ => .ok r2) ⟨[], 0⟩).result
        = .error (.exhausted urlA 2 (some .checksum)) ∧
    hasFile (download 1000 md5bb urlA none 10 2 (fun _ => .ok r2) ⟨[], 0⟩).state.fs
        (finalPath urlA etag32) = false := by
  have c1 : (streamChunks none 10 r2.contentLength r2.body 0 (-1)).raised = false := by
    decide
  have c2 : r2.contentLength
      = some (streamChunks none 10 r2.contentLength r2.body 0 (-1)).content.length := by
    decide
  have c3 : extractMD5 r2.contentMD5 r2.etag = some etag32 := by decide
  have c4 : pyLower (md5bb (streamChunks none 10 r2.contentLength r2.body 0 (-1)).content)
      ≠ pyLower etag32 := by decide
  have h := C2_all_attempts_fail_exhausts_and_cache_clean 1000 md5bb urlA none 10
    (fun _ => .ok r2) 2 ⟨[], 0⟩ (fun _ => r2) (by omega)
    (fun k hk1 hk2 => ⟨rfl, rfl, c1, Or.inr c2, etag32, c3, c4⟩)
  exact ⟨h.1, h.2.2.2 etag32⟩

/-- C1: on a 200 response, a declared-size mismatch fails the attempt with
the incomplete-transfer error and a checksum-hint mismatch fails it with
the distinct checksum error; in both cases the temp file is not renamed
onto the final cache path (no entry for the url's key exists afterwards),
and a truncated body is never published on any attempt of a download. -/
theorem C1_validation_failure_not_published :
    (∀ (m : Nat) (md5 : List Nat → String) (url : URL)
        (cb : Option (Nat → Option Nat → Bool)) (cbc : Nat) (r : Response) (fs : FS)
        (es : Nat),
      r.code = 200 → r.contentLength = some es →
      (streamChunks cb cbc r.contentLength r.body 0 (-1)).raised = false →
      (streamChunks cb cbc r.contentLength r.body 0 (-1)).content.length ≠ es →
      (attemptOnce m md5 url cb cbc (.ok r) fs).res
          = .fail (.incomplete
              (streamChunks cb cbc r.contentLength r.body 0 (-1)).content.length es) ∧
      (∀ key, hasFile (attemptOnce m md5 url cb cbc (.ok r) fs).fs
          (finalPath url key) = false)) ∧
    (∀ (m : Nat) (md5 : List Nat → String) (url : URL)
        (cb : Option (Nat → Option Nat → Bool)) (cbc : Nat) (r : Response) (fs : FS)
        (h : String),
      r.code = 200 →
      (streamChunks cb cbc r.contentLength r.body 0 (-1)).raised = false →
      (r.contentLength = none ∨ r.contentLength
          = some (streamChunks cb cbc r.contentLength r.body 0 (-1)).content.length) →
      extractMD5 r.contentMD5 r.etag = some h →
      pyLower (md5 (streamChunks cb cbc r.contentLength r.body 0 (-1)).content)
          ≠ pyLower h →
      (attemptOnce m md5 url cb cbc (.ok r) fs).res = .fail .checksum ∧
      (∀ key, hasFile (attemptOnce m md5 url cb cbc (.ok r) fs).fs
          (finalPath url key) = false)) ∧
    (∀ g e, AErr.incomplete g e ≠ AErr.checksum) ∧
    (∀ (m : Nat) (md5 : List Nat → String) (url : URL)
        (cb : Option (Nat → Option Nat → Bool)) (cbc : Nat) (oracle : Nat → NetResult)
        (retries : Nat) (fs : FS) (R : Nat → Response) (esF : Nat → Nat),
      0 < retries →
      (∀ k, 0 < k → k ≤ retries → oracle k = .ok (R k) ∧ (R k).code = 200 ∧
        (R k).contentLength = some (esF k) ∧
        (streamChunks cb cbc (R k).contentLength (R k).body 0 (-1)).raised = false ∧
        (streamChunks cb cbc (R k).contentLength (R k).body 0 (-1)).content.length
          ≠ esF k) →
      (download m md5 url cb cbc retries oracle fs).result
          = .error (.exhausted url retries (some (.incomplete
              (streamChunks cb cbc (R retries).contentLength
                (R retries).body 0 (-1)).content.length
              (esF retries)))) ∧
      (∀ key, hasFile (download m md5 url cb cbc retries oracle fs).state.fs
          (finalPath url key) = false)) := by
  refine ⟨?_, ?_, ?_, ?_⟩
  · intro m md5 url cb cbc r fs es hcode hes hr hne
    obtain ⟨h1, h2⟩ := attemptOnce_incomplete_clean m md5 url cb cbc r fs hcode hes hr hne
    exact ⟨h1, fun key => hasFile_false_of_patternFree h2 key⟩
  · intro m md5 url cb cbc r fs h hcode hr hsize hmd5 hmm
    obtain ⟨h1, h2⟩ := attemptOnce_checksum_clean m md5 url cb cbc r fs hcode hr hsize hmd5 hmm
    exact ⟨h1, fun key => hasFile_false_of_patternFree h2 key⟩
  · intro g e hc
    exact AErr.noConfusion hc
  · intro m md5 url cb cbc oracle retries fs R esF hret hall
    have H : ∀ k, 0 < k → k ≤ retries → ∀ fs2,
        (attemptOnce m md5 url cb cbc (oracle k) fs2).res
            = .fail (.incomplete
                (streamChunks cb cbc (R k).contentLength (R k).body 0 (-1)).content.length
                (esF k)) ∧
        patternFree url (attemptOnce m md5 url cb cbc (oracle k) fs2).fs := by
      intro k hk1 hk2 fs2
      obtain ⟨ho, hc, hcl, hr, hne⟩ := hall k hk1 hk2
      rw [ho]
      exact attemptOnce_incomplete_clean m md5 url cb cbc (R k) fs2 hc hcl hr hne
    have main := downloadGo_allFail m md5 url cb cbc oracle retries
      (fun k => .incomplete
        (streamChunks cb cbc (R k).contentLength (R k).body 0 (-1)).content.length
        (esF k))
      H retries 0 (initState fs) hret (by omega)
    exact ⟨main.1, fun key => hasFile_false_of_patternFree main.2.2 key⟩

theorem C1_validation_failure_not_published_witness :
    ((attemptOnce 1000 md5c urlB none 10 (.ok rShort) ⟨[], 0⟩).res
        = .fail (.incomplete 2 5)) ∧
    (hasFile (attemptOnce 1000 md5c urlB none 10 (.ok rShort) ⟨[], 0⟩).fs
        (finalPath urlB "") = false) ∧
    ((attemptOnce 1000 md5bb urlB none 10 (.ok rchk) ⟨[], 0⟩).res = .fail .checksum) ∧
    (AErr.incomplete 2 5 ≠ AErr.checksum) ∧
    ((download 1000 md5c urlB none 10 1 (fun _ => .ok rShort) ⟨[], 0⟩).result
        = .error (.exhausted urlB 1 (some (.incomplete 2 5)))) := by
  have w1 := C1_validation_failure_not_published.1 1000 md5c urlB none 10 rShort
    ⟨[], 0⟩ 5 rfl rfl (by decide) (by decide)
  have w2 := C1_validation_failure_not_published.2.1 1000 md5bb urlB none 10 rchk
    ⟨[], 0⟩ etag32 rfl (by decide) (Or.inr (by decide)) (by decide) (by decide)
  have c1 : (streamChunks none 10 rShort.contentLength rShort.body 0 (-1)).raised
      = false := by decide
  have c2 : (streamChunks none 10 rShort.contentLength rShort.body 0 (-1)).content.length
      ≠ 5 := by decide
  have w4 := (C1_validation_failure_not_published.2.2.2 1000 md5c urlB none 10
    (fun _ => .ok rShort) 1 ⟨[], 0⟩ (fun _ => rShort) (fun _ => 5) (by omega)
    (fun k hk1 hk2 => ⟨rfl, rfl, rfl, c1, c2⟩)).1
  exact ⟨w1.1, w1.2 "", w2.1, C1_validation_failure_not_published.2.2.1 2 5, w4⟩

theorem attempt200_res_shape (m : Nat) (md5 : List Nat → String) (url : URL)
    (cb : Option (Nat → Option Nat → Bool)) (cbc : Nat) (r : Response) (fs : FS) :
    (∃ p, (attempt200 m md5 url cb cbc r fs).res = .success p) ∨
    (∃ e, (attempt200 m md5 url cb cbc r fs).res = .fail e) := by
  unfold attempt200
  dsimp only
  repeat' split
  all_goals first
    | exact Or.inl ⟨_, rfl⟩
    | exact Or.inr ⟨_, rfl⟩

theorem attemptOnce_res_shape (m : Nat) (md5 : List Nat → String) (url : URL)
    (cb : Option (Nat → Option Nat → Bool)) (cbc : Nat) (resp : NetResult) (fs : FS)
    (H : ∀ r, resp = .ok r → r.code ≠ 304) :
    (∃ p, (attemptOnce m md5 url cb cbc resp fs).res = .success p) ∨
    (∃ e, (attemptOnce m md5 url cb cbc resp fs).res = .fail e) := by
  rcases resp with r | code | _
  · have hcode : r.code ≠ 304 := H r rfl
    unfold attemptOnce
    dsimp only
    rcases hget : (cacheGet url fs).1 with _ | pr
    all_goals dsimp only
    · by_cases h2 : r.code ≠ 200
      · rw [if_pos h2]
        exact Or.inr ⟨_, rfl⟩
      · rw [if_neg h2]
        rcases attempt200_res_shape m md5 url cb cbc r (cacheGet url fs).2
          with ⟨p, hp⟩ | ⟨e, he⟩
        · exact Or.inl ⟨p, hp⟩
        · exact Or.inr ⟨e, he⟩
    · rw [if_neg hcode]
      by_cases h2 : r.code ≠ 200
      · rw [if_pos h2]
        exact Or.inr ⟨_, rfl⟩
      · rw [if_neg h2]
        rcases attempt200_res_shape m md5 url cb cbc r (cacheGet url fs).2
          with ⟨p, hp⟩ | ⟨e, he⟩
        · exact Or.inl ⟨p, hp⟩
        · exact Or.inr ⟨e, he⟩
  · unfold attemptOnce
    dsimp only
    rcases hget : (cacheGet url fs).1 with _ | pr
    all_goals dsimp only
    · exact Or.inr ⟨_, rfl⟩
    · by_cases h304 : code = 304
      · rw [if_pos h304]
        rcases hfc : fileContent (cacheGet url fs).2 pr.1 with _ | c
        all_goals dsimp only
        · exact Or.inr ⟨_, rfl⟩
        · by_cases hl : 0 < c.length
          · rw [if_pos hl]
            exact Or.inl ⟨_, rfl⟩
          · rw [if_neg hl]
            exact Or.inr ⟨_, rfl⟩
      · rw [if_neg h304]
        exact Or.inr ⟨_, rfl⟩
  · exact Or.inr ⟨.netError, rfl⟩

theorem downloadGo_sleeps_wf (m : Nat) (md5 : List Nat → String) (url : URL)
    (cb : Option (Nat → Option Nat → Bool)) (cbc : Nat) (oracle : Nat → NetResult)
    (retries : Nat) :
    ∀ (rem attempt : Nat) (st : DLState),
      ∀ p ∈ (downloadGo m md5 url cb cbc oracle retries attempt rem st).state.sleeps,
        p ∈ st.sleeps ∨
        (attempt < p.1 ∧ p.1 < retries ∧ p.2 = min (2 ^ (p.1 - 1)) 30) := by
  intro rem
  induction rem with
  | zero =>
    intro attempt st p hp
    exact Or.inl hp
  | succ rr ih =>
    intro attempt st p hp
    simp only [downloadGo] at hp
    rcases hres : (attemptOnce m md5 url cb cbc (oracle (attempt + 1)) st.fs).res
      with q | e | e <;> rw [hres] at hp <;> dsimp only at hp
    · exact Or.inl hp
    · by_cases hlt : attempt + 1 < retries
      · rw [if_pos hlt] at hp
        rcases ih (attempt + 1) _ p hp with h1 | ⟨h1, h2, h3⟩
        · rcases List.mem_append.mp h1 with h2 | h2
          · exact Or.inl h2
          · have h3 : p = (attempt + 1, min (2 ^ (attempt + 1 - 1)) 30) := by
              simpa using h2
            subst h3
            exact Or.inr ⟨by omega, hlt, rfl⟩
        · exact Or.inr ⟨by omega, h2, h3⟩
      · rw [if_neg hlt] at hp
        rcases ih (attempt + 1) _ p hp with h1 | ⟨h1, h2, h3⟩
        · exact Or.inl h1
        · exact Or.inr ⟨by omega, h2, h3⟩
    · rcases ih (attempt + 1) _ p hp with h1 | ⟨h1, h2, h3⟩
      · exact Or.inl h1
      · exact Or.inr ⟨by omega, h2, h3⟩

theorem downloadGo_sleeps_ordered (m : Nat) (md5 : List Nat → String) (url : URL)
    (cb : Option (Nat → Option Nat → Bool)) (cbc : Nat) (oracle : Nat → NetResult)
    (retries : Nat) :
    ∀ (rem attempt : Nat) (st : DLState),
      st.sleeps.Pairwise (fun p q => p.1 < q.1) →
      (∀ p ∈ st.sleeps, p.1 ≤ attempt) →
      (downloadGo m md5 url cb cbc oracle retries attempt rem st).state.sleeps.Pairwise
        (fun p q => p.1 < q.1) := by
  intro rem
  induction rem with
  | zero =>
    intro attempt st hpw _
    exact hpw
  | succ rr ih =>
    intro attempt st hpw hbd
    simp only [downloadGo]
    rcases hres : (attemptOnce m md5 url cb cbc (oracle (attempt + 1)) st.fs).res
      with q | e | e
    all_goals dsimp only
    · exact hpw
    · by_cases hlt : attempt + 1 < retries
      · rw [if_pos hlt]
        apply ih (attempt + 1)
        · rw [List.pairwise_append]
          refine ⟨hpw, List.pairwise_singleton _ _, ?_⟩
          intro x hx y hy
          have h1 := hbd x hx
          have h2 : y = (attempt + 1, min (2 ^ (attempt + 1 - 1)) 30) := by
            simpa using hy
          subst h2
          omega
        · intro p hp
          rcases List.mem_append.mp hp with h1 | h1
          · have := hbd p h1
            omega
          · have h2 : p = (attempt + 1, min (2 ^ (attempt + 1 - 1)) 30) := by
              simpa using h1
            subst h2
            omega
      · rw [if_neg hlt]
        apply ih (attempt + 1)
        · exact hpw
        · intro p hp
          have := hbd p hp
          omega
    · apply ih (attempt + 1)
      · exact hpw
      · intro p hp
        have := hbd p hp
        omega

/-- C5: urllib returns a response object only for 2xx statuses — a 304
raises HTTPError, whose handler falls through to the backoff block — so a
network oracle never yields an ok-response with code 304; under that
restriction every attempt k that fails with attempts remaining records the
log-and-sleep backoff event (k, min(2^(k-1), 30)) before the next attempt
starts, and every backoff event of a download is exactly of that form for
some attempt 1 ≤ k < retries, recorded in increasing attempt order: the
delays 1, 2, 4, 8, 16, 30, 30, ... -/
theorem C5_backoff_on_every_failure :
    (∀ (m : Nat) (md5 : List Nat → String) (url : URL)
        (cb : Option (Nat → Option Nat → Bool)) (cbc : Nat)
        (oracle : Nat → NetResult) (retries attempt rem : Nat) (st : DLState)
        (e : AErr),
      (∀ r, oracle (attempt + 1) = .ok r → r.code ≠ 304) →
      ((attemptOnce m md5 url cb cbc (oracle (attempt + 1)) st.fs).res = .fail e ∨
        (attemptOnce m md5 url cb cbc (oracle (attempt + 1)) st.fs).res
          = .failNoBackoff e) →
      attempt + 1 < retries →
      ∃ rest,
        (downloadGo m md5 url cb cbc oracle retries attempt (rem + 1) st).state.sleeps
          = st.sleeps ++ (attempt + 1, min (2 ^ attempt) 30) :: rest) ∧
    (∀ (m : Nat) (md5 : List Nat → String) (url : URL)
        (cb : Option (Nat → Option Nat → Bool)) (cbc retries : Nat)
        (oracle : Nat → NetResult) (fs : FS),
      ∀ p ∈ (download m md5 url cb cbc retries oracle fs).state.sleeps,
        p.2 = min (2 ^ (p.1 - 1)) 30 ∧ 0 < p.1 ∧ p.1 < retries) ∧
    (∀ (m : Nat) (md5 : List Nat → String) (url : URL)
        (cb : Option (Nat → Option Nat → Bool)) (cbc retries : Nat)
        (oracle : Nat → NetResult) (fs : FS),
      (download m md5 url cb cbc retries oracle fs).state.sleeps.Pairwise
        (fun p q => p.1 < q.1)) := by
  refine ⟨?_, ?_, ?_⟩
  · intro m md5 url cb cbc oracle retries attempt rem st e H hres hlt
    rcases hres with hres | hres
    · simp only [downloadGo]
      rw [hres]
      dsimp only
      rw [if_pos hlt]
      obtain ⟨rest, h1, _⟩ := downloadGo_sleeps_ext m md5 url cb cbc oracle retries
        rem (attempt + 1) _
      refine ⟨rest, ?_⟩
      rw [h1]
      dsimp only
      simp [Nat.add_sub_cancel]
    · rcases attemptOnce_res_shape m md5 url cb cbc (oracle (attempt + 1)) st.fs H
        with ⟨p, hp⟩ | ⟨e1, he⟩
      · rw [hres] at hp
        exact AttemptRes.noConfusion hp
      · rw [hres] at he
        exact AttemptRes.noConfusion he
  · intro m md5 url cb cbc retries oracle fs p hp
    rcases downloadGo_sleeps_wf m md5 url cb cbc oracle retries retries 0
      (initState fs) p hp with h1 | ⟨h1, h2, h3⟩
    · simp [initState] at h1
    · exact ⟨h3, h1, h2⟩
  · intro m md5 url cb cbc retries oracle fs
    apply downloadGo_sleeps_ordered m md5 url cb cbc oracle retries retries 0
      (initState fs)
    · exact List.Pairwise.nil
    · intro p hp
      simp [initState] at hp

theorem C5_backoff_on_every_failure_witness :
    (∃ rest, (downloadGo 10 md5c urlA none 10 oracleNet 2 0 2
        (initState ⟨[], 0⟩)).state.sleeps = (1, 1) :: rest) ∧
    ((1, 1) : Nat × Nat).2 = min (2 ^ (((1, 1) : Nat × Nat).1 - 1)) 30 ∧
      0 < ((1, 1) : Nat × Nat).1 ∧ ((1, 1) : Nat × Nat).1 < 2 :=
  ⟨C5_backoff_on_every_failure.1 10 md5c urlA none 10 oracleNet 2 0 1
      (initState ⟨[], 0⟩) .netError (fun r hr => NetResult.noConfusion hr)
      (Or.inl (by decide)) (by decide),
   C5_backoff_on_every_failure.2.1 10 md5c urlA none 10 2 oracleNet ⟨[], 0⟩
      (1, 1) (by decide)⟩
